import Mathlib

/-!
Verification of the text-transformation core of `japanese_translator.py`
(class `JapaneseDimensionTranslator`).

Strings are modelled as `List Char` (Python `str` iterates over Unicode code
points, and `len` counts them).  Every definition below is a direct shallow
embedding of the corresponding Python function; dictionaries
(`self.translations`, `self.care_labels`) become explicit association lists
passed as parameters, since the code builds its working order from
`dict.items()` (insertion order) with a stable descending-length sort.
-/

set_option maxHeartbeats 1000000
set_option maxRecDepth 10000

abbrev L := List Char

/-- Convert a Lean string literal to the `List Char` model. -/
def lc (s : String) : L := s.data

/-- The whitespace class used by Python `str.strip()` and by `\s` in `re`
patterns over `str` (restricted to the code points that can occur in this
domain: ASCII whitespace, NBSP and the ideographic space). -/
def pyIsSpace (c : Char) : Bool :=
  c = ' ' || c = '\t' || c = '\n' || c = '\r' || c = '\x0b' || c = '\x0c' ||
  c = ' ' || c = '　'

/-- Python `str.strip()`: drop leading and trailing whitespace. -/
def pyStrip (s : L) : L :=
  ((s.dropWhile pyIsSpace).reverse.dropWhile pyIsSpace).reverse

/-- Fueled scan underlying `replaceAll`; the fuel only serves to make the
recursion structural (it is always called with fuel at least the length of
the text, which the congruence lemma below shows is enough). -/
def replaceAllF (src tgt : L) : Nat → L → L
  | _, [] => if src = [] then tgt else []
  | 0, c :: cs => c :: cs
  | fuel + 1, c :: cs =>
    if src = [] then tgt ++ c :: replaceAllF src tgt fuel cs
    else if src.isPrefixOf (c :: cs) then
      tgt ++ replaceAllF src tgt fuel ((c :: cs).drop src.length)
    else c :: replaceAllF src tgt fuel cs

/-- Python `str.replace(src, tgt)`: replace every non-overlapping occurrence
of `src`, scanning left to right; the replacement text is not rescanned.
For an empty `src`, Python inserts `tgt` before every character and at the
end. -/
def replaceAll (src tgt s : L) : L := replaceAllF src tgt s.length s

/-- One dictionary entry: (source term, target term). -/
abbrev Entry := L × L

/-- Stable insertion into a list already sorted by descending source length:
keeps existing entries of length `≥` the new one ahead of it.  Matches the
stability of Python `sorted(..., key=len, reverse=True)`. -/
def insertD (e : Entry) : List Entry → List Entry
  | [] => [e]
  | f :: fs => if e.1.length < f.1.length then f :: insertD e fs else e :: f :: fs

/-- `sorted(d.items(), key=lambda x: len(x[0]), reverse=True)`:
stable sort by descending source-term length. -/
def sortDescLen : List Entry → List Entry
  | [] => []
  | e :: es => insertD e (sortDescLen es)

/-- Apply the entries in the given order, each as a whole-text
`str.replace` pass whose output feeds the next pass. -/
def applyEntries (entries : List Entry) (s : L) : L :=
  entries.foldl (fun acc p => replaceAll p.1 p.2 acc) s

/-- The `fullwidth_to_halfwidth` table of `convert_fullwidth_to_halfwidth`,
in Python dict insertion order (iteration order of `.items()`). -/
def fwTable : List (Char × L) :=
  [ ('（', ['(']), ('）', [')']), ('［', ['[']), ('］', [']']),
    ('｛', ['\x7b']), ('｝', ['\x7d']),
    ('：', [':']), ('；', [';']), ('，', [',']), ('、', [',']),
    ('．', ['.']), ('！', ['!']), ('？', ['?']),
    ('～', [' ', 't', 'o', ' ']),
    ('－', ['-']), ('＿', ['_']), ('＝', ['=']), ('＋', ['+']),
    ('＊', ['*']), ('／', ['/']), ('＼', ['\\']), ('｜', ['|']),
    ('＠', ['@']), ('＃', ['#']), ('＄', ['$']), ('％', ['%']),
    ('＾', ['^']), ('＆', ['&']),
    ('０', ['0']), ('１', ['1']), ('２', ['2']), ('３', ['3']),
    ('４', ['4']), ('５', ['5']), ('６', ['6']), ('７', ['7']),
    ('８', ['8']), ('９', ['9']),
    ('Ａ', ['A']), ('Ｂ', ['B']), ('Ｃ', ['C']), ('Ｄ', ['D']),
    ('Ｅ', ['E']), ('Ｆ', ['F']), ('Ｇ', ['G']), ('Ｈ', ['H']),
    ('Ｉ', ['I']), ('Ｊ', ['J']), ('Ｋ', ['K']), ('Ｌ', ['L']),
    ('Ｍ', ['M']), ('Ｎ', ['N']), ('Ｏ', ['O']), ('Ｐ', ['P']),
    ('Ｑ', ['Q']), ('Ｒ', ['R']), ('Ｓ', ['S']), ('Ｔ', ['T']),
    ('Ｕ', ['U']), ('Ｖ', ['V']), ('Ｗ', ['W']), ('Ｘ', ['X']),
    ('Ｙ', ['Y']), ('Ｚ', ['Z']),
    ('ａ', ['a']), ('ｂ', ['b']), ('ｃ', ['c']), ('ｄ', ['d']),
    ('ｅ', ['e']), ('ｆ', ['f']), ('ｇ', ['g']), ('ｈ', ['h']),
    ('ｉ', ['i']), ('ｊ', ['j']), ('ｋ', ['k']), ('ｌ', ['l']),
    ('ｍ', ['m']), ('ｎ', ['n']), ('ｏ', ['o']), ('ｐ', ['p']),
    ('ｑ', ['q']), ('ｒ', ['r']), ('ｓ', ['s']), ('ｔ', ['t']),
    ('ｕ', ['u']), ('ｖ', ['v']), ('ｗ', ['w']), ('ｘ', ['x']),
    ('ｙ', ['y']), ('ｚ', ['z']) ]

/-- Sequential `str.replace` over the pairs of a single-character table,
in table order (the loop body of `convert_fullwidth_to_halfwidth`). -/
def convT (tbl : List (Char × L)) (s : L) : L :=
  tbl.foldl (fun acc p => replaceAll [p.1] p.2 acc) s

/-- `convert_fullwidth_to_halfwidth(text)`. -/
def convert_fullwidth_to_halfwidth (s : L) : L :=
  if s = [] then s else convT fwTable s

/-- One pass of `re.sub(p + r'(?![\s\n])', p + ' ', text)` for a single
punctuation character `p`: the scan moves left to right, a match consumes
`p` alone, the inserted space is not rescanned, and the negative lookahead
succeeds at end of string. -/
def addAfter (p : Char) : L → L
  | [] => []
  | [c] => if c = p then [c, ' '] else [c]
  | c :: d :: r =>
    if c = p ∧ ¬ pyIsSpace d then c :: ' ' :: addAfter p (d :: r)
    else c :: addAfter p (d :: r)

/-- `add_spacing_after_punctuation(text)`: the three independent passes,
`)` then `,` then `:`, each over the previous pass's output. -/
def add_spacing_after_punctuation (s : L) : L :=
  if s = [] then s else addAfter ':' (addAfter ',' (addAfter ')' s))

/-- ASCII letter, the regex class `[A-Za-z]`. -/
def isAsciiLetter (c : Char) : Bool :=
  ('A' ≤ c && c ≤ 'Z') || ('a' ≤ c && c ≤ 'z')

/-- The regex class `\d` over Python `str`: Unicode decimal digits,
restricted to the code points occurring in this domain (ASCII digits and
the fullwidth digits; the latter only matter before normalization). -/
def isPyDigit (c : Char) : Bool :=
  ('0' ≤ c && c ≤ '9') || ('０' ≤ c && c ≤ '９')

/-- Attempt to match `([A-Za-z]+)(\d+%)` at the start of `s`: greedy letter
run, then greedy digit run, then a literal `%`.  Returns the two groups and
the remainder after the match. -/
def splitMatch1 (s : L) : Option (L × L × L) :=
  if s.takeWhile isAsciiLetter ≠ [] ∧
     (s.dropWhile isAsciiLetter).takeWhile isPyDigit ≠ [] ∧
     ((s.dropWhile isAsciiLetter).drop
       ((s.dropWhile isAsciiLetter).takeWhile isPyDigit).length).head? = some '%' then
    some (s.takeWhile isAsciiLetter,
          (s.dropWhile isAsciiLetter).takeWhile isPyDigit,
          ((s.dropWhile isAsciiLetter).drop
            ((s.dropWhile isAsciiLetter).takeWhile isPyDigit).length).tail)
  else none

/-- Attempt to match `([A-Za-z]+)(\d+)` at the start of `s`. -/
def splitMatch2 (s : L) : Option (L × L × L) :=
  if s.takeWhile isAsciiLetter ≠ [] ∧
     (s.dropWhile isAsciiLetter).takeWhile isPyDigit ≠ [] then
    some (s.takeWhile isAsciiLetter,
          (s.dropWhile isAsciiLetter).takeWhile isPyDigit,
          (s.dropWhile isAsciiLetter).drop
            ((s.dropWhile isAsciiLetter).takeWhile isPyDigit).length)
  else none

/-- Fueled version of the scan of `sub1` (fuel makes it structural). -/
def sub1F : Nat → L → L
  | _, [] => []
  | 0, c :: cs => c :: cs
  | fuel + 1, c :: cs =>
    match splitMatch1 (c :: cs) with
    | some (lm, dm, rest) => lm ++ ' ' :: dm ++ '%' :: sub1F fuel rest
    | none => c :: sub1F fuel cs

/-- `re.sub(r'([A-Za-z]+)(\d+%)', r'\1 \2', text)`: left-to-right scan; on a
match, emit group 1, a space, group 2 and continue after the match; on
failure advance one character.  (Failure at the start of a letter run
implies failure throughout the run, so this agrees with the engine.) -/
def sub1 (s : L) : L := sub1F s.length s

/-- Fueled version of the scan of `sub2`. -/
def sub2F : Nat → L → L
  | _, [] => []
  | 0, c :: cs => c :: cs
  | fuel + 1, c :: cs =>
    match splitMatch2 (c :: cs) with
    | some (lm, dm, rest) => lm ++ ' ' :: dm ++ sub2F fuel rest
    | none => c :: sub2F fuel cs

/-- `re.sub(r'([A-Za-z]+)(\d+)', r'\1 \2', text)`. -/
def sub2 (s : L) : L := sub2F s.length s

/-- `add_spaces_after_materials(text)`: the `%`-suffixed pattern first, then
the bare-digits pattern over its output. -/
def add_spaces_after_materials (s : L) : L :=
  if s = [] then s else sub2 (sub1 s)

/-- Python `text.split('\n')` (note `"".split('\n') == [""]`). -/
def splitNL : L → List L
  | [] => [[]]
  | c :: cs =>
    if c = '\n' then [] :: splitNL cs
    else
      match splitNL cs with
      | [] => [[c]]
      | l :: ls => (c :: l) :: ls

/-- Python `'\n'.join(lines)`. -/
def joinNL : List L → L
  | [] => []
  | [l] => l
  | l :: l' :: ls => l ++ '\n' :: joinNL (l' :: ls)

/-- `translate_text(text)` (pure part; the `interactive` branch only records
unknown terms in a set and never changes the output).  Per line: blank lines
pass through; others get every dictionary entry applied as a whole-line
`str.replace`, longest source term first (stable on ties, like Python's
`sorted`).  The joined result then goes through the three normalization
passes. -/
def translate_text (entries : List Entry) (text : L) : L :=
  if text = [] then text
  else
    let sorted := sortDescLen entries
    let lines := splitNL text
    let tlines := lines.map (fun line =>
      if pyStrip line = [] then line else applyEntries sorted line)
    add_spaces_after_materials
      (add_spacing_after_punctuation
        (convert_fullwidth_to_halfwidth (joinNL tlines)))

/-- The built-in `self.translations` dictionary, in insertion order. -/
def baseTranslations : List Entry :=
  [ (lc "総丈", lc "Total Length"), (lc "股下", lc "Inseam"),
    (lc "身幅", lc "Body Width"), (lc "裄丈", lc "Sleeve Length"),
    (lc "フード丈", lc "Hood Length"), (lc "フード幅", lc "Hood Width"),
    (lc "肩幅", lc "Shoulder Width"), (lc "胸囲", lc "Chest"),
    (lc "ウエスト", lc "Waist"), (lc "ヒップ", lc "Hip"),
    (lc "袖丈", lc "Sleeve Length"), (lc "袖口", lc "Cuff"),
    (lc "裾幅", lc "Hem Width"), (lc "股上", lc "Rise"),
    (lc "太もも", lc "Thigh"), (lc "膝下", lc "Knee"),
    (lc "足首", lc "Ankle"),
    (lc "丈", lc "Length"), (lc "幅", lc "Width"),
    (lc "cm", lc "cm"), (lc "mm", lc "mm"), (lc "m", lc "m"),
    (lc "コットン", lc "Cotton"), (lc "綿", lc "Cotton"),
    (lc "ポリエステル", lc "Polyester"), (lc "ナイロン", lc "Nylon"),
    (lc "ウール", lc "Wool"), (lc "シルク", lc "Silk"),
    (lc "レーヨン", lc "Rayon"), (lc "アクリル", lc "Acrylic"),
    (lc "スパンデックス", lc "Spandex"), (lc "エラスタン", lc "Elastane"),
    (lc "リネン", lc "Linen"), (lc "カシミア", lc "Cashmere"),
    (lc "モヘア", lc "Mohair"), (lc "アルパカ", lc "Alpaca"),
    (lc "混紡", lc "Blend"), (lc "100%", lc "100%"),
    (lc "表生地", lc "Main Fabric"), (lc "裏生地", lc "Lining Fabric"),
    (lc "刺繍糸", lc "Embroidery Thread"), (lc "再生繊維", lc "Regenerated Fiber"),
    (lc "セルロース", lc "Cellulose"), (lc "ポリウレタン", lc "Polyurethane") ]

/-- A line is "country-like" in the walk of `split_materials_content`:
nonempty after strip and its stripped form does not start with `※`. -/
def isCountryLike (line : L) : Bool :=
  pyStrip line ≠ [] && (pyStrip line).head? ≠ some '※'

/-- The walk over the lines from the first marker line to the end:
each country-like line overwrites `country` (stripped), every other line is
appended to the collected care list. -/
def careCountryWalk (lines : List L) : List L × L :=
  lines.foldl
    (fun acc l => if isCountryLike l then (acc.1, pyStrip l) else (acc.1 ++ [l], acc.2))
    ([], [])

/-- `split_materials_content(content)`: returns
(materials, care_instructions, country). -/
def split_materials_content (content : L) : L × L × L :=
  if content = [] then ([], [], [])
  else
    let lines := splitNL (pyStrip content)
    match lines.findIdx? (fun l => '※' ∈ l) with
    | none => (pyStrip content, [], [])
    | some i =>
      let materials := pyStrip (joinNL (lines.take i))
      let walked := careCountryWalk (lines.drop i)
      (materials, pyStrip (joinNL walked.1), walked.2)

/-- `translate_care_instructions(care_instructions)`: care-label dictionary
substitution only (longest source first), with no normalization pass. -/
def translate_care_instructions (careLabels : List Entry) (s : L) : L :=
  if s = [] then s else applyEntries (sortDescLen careLabels) s

/-- The character class of the Japanese-run regex
`[぀-ゟ゠-ヿ一-龯]`. -/
def isJP (c : Char) : Bool :=
  (0x3040 ≤ c.toNat && c.toNat ≤ 0x309F) ||
  (0x30A0 ≤ c.toNat && c.toNat ≤ 0x30FF) ||
  (0x4E00 ≤ c.toNat && c.toNat ≤ 0x9FAF)

/-- Fueled version of the regex scan of `jpRuns`. -/
def jpRunsF : Nat → L → List L
  | _, [] => []
  | 0, _ :: _ => []
  | fuel + 1, c :: cs =>
    if isJP c then (c :: cs.takeWhile isJP) :: jpRunsF fuel (cs.dropWhile isJP)
    else jpRunsF fuel cs

/-- `re.findall(japanese_pattern, text)`: the maximal runs of Japanese
characters, left to right. -/
def jpRuns (s : L) : List L := jpRunsF s.length s

/-- The character class of the filter regex `^[0-9.,：:cm]+$`. -/
def isNumUnitChar (c : Char) : Bool :=
  ('0' ≤ c && c ≤ '9') || c = '.' || c = ',' || c = '：' || c = ':' ||
  c = 'c' || c = 'm'

/-- `re.match(r'^[0-9.,：:cm]+$', term)` is truthy iff the whole (nonempty)
term consists of those characters. -/
def isNumUnitOnly (t : L) : Bool :=
  t ≠ [] && t.all isNumUnitChar

/-- `extract_japanese_terms(text)`: the set of Japanese runs (deduplicated)
that are not dictionary keys, are longer than one character, and are not
purely numeric/unit text.  Modelled as a deduplicated list. -/
def extract_japanese_terms (translations : List Entry) (text : L) : List L :=
  ((jpRuns text).dedup).filter
    (fun t => t ∉ translations.map Prod.fst && t.length > 1 && !isNumUnitOnly t)

/-- The per-row core of `process_csv_file`: the output record written for
one parsed CSV row (progress printing and file I/O aside).  An empty row is
written as `['']`; a row with the materials column yields the 7-field
record; otherwise the 2-field record. -/
def process_row (translations careLabels : List Entry) (materialsColumn : Nat)
    (row : List L) : List L :=
  if row = [] then [[]]
  else
    let japaneseDimensions := row.headD []
    let englishDimensions := translate_text translations japaneseDimensions
    if materialsColumn < row.length then
      let fullMaterials := row.getD materialsColumn []
      let split := split_materials_content fullMaterials
      let materialsContent := split.1
      let careInstructions := split.2.1
      let country := split.2.2
      [japaneseDimensions, englishDimensions,
       materialsContent, translate_text translations materialsContent,
       careInstructions, translate_care_instructions careLabels careInstructions,
       country]
    else [japaneseDimensions, englishDimensions]

/-- `Occ r s`: `r` occurs as a contiguous substring of `s`. -/
def Occ (r s : L) : Prop := ∃ a b, s = a ++ r ++ b

/-- Executable occurrence check, for deciding `Occ` on concrete inputs. -/
def occB (r : L) : L → Bool
  | [] => r.isEmpty
  | c :: cs => r.isPrefixOf (c :: cs) || occB r cs

/-- Apply a character-to-string map to every character and concatenate. -/
def charMapAll (f : Char → L) : L → L
  | [] => []
  | c :: cs => f c ++ charMapAll f cs

/-- `goodB p s`: every occurrence of `p` in `s` is immediately followed by a
whitespace character (in particular `p` is not the last character). -/
def goodB (p : Char) : L → Bool
  | [] => true
  | [c] => c != p
  | c :: d :: r => (c != p || pyIsSpace d) && goodB p (d :: r)

/-- `nadB s`: no ASCII letter of `s` is immediately followed by a digit. -/
def nadB : L → Bool
  | [] => true
  | [_] => true
  | c :: d :: r => !(isAsciiLetter c && isPyDigit d) && nadB (d :: r)

/-- The keys of the fullwidth conversion table. -/
def fwKeys : List Char := fwTable.map Prod.fst

/-- No character of `s` is a key of the fullwidth table. -/
def noKeysB (s : L) : Bool := s.all (fun c => fwKeys.all (fun k => c != k))

/-- Half-width (ASCII) digit. -/
def isHalfDigit (c : Char) : Bool := '0' ≤ c && c ≤ '9'

/-- `MaximalRun t s`: `t` is a nonempty all-Japanese run occurring in `s`
that cannot be extended on either side (the character before, when there is
one, is not Japanese, and likewise after).  This is the specification-side
reading of "maximal runs of Hiragana/Katakana/Kanji codepoints". -/
def MaximalRun (t s : L) : Prop :=
  t ≠ [] ∧ (∀ c ∈ t, isJP c = true) ∧
  ∃ a b, s = a ++ t ++ b ∧
    (∀ x, a.getLast? = some x → isJP x = false) ∧
    (∀ y, b.head? = some y → isJP y = false)

/-- The country component of the walk in isolation: fold over the lines,
overwriting the accumulator with each country-like line (stripped). -/
def countryFold (acc : L) (lines : List L) : L :=
  lines.foldl (fun a l => if isCountryLike l then pyStrip l else a) acc

/-! ### Lemmas and claim theorems -/

theorem replaceAllF_congr (src tgt : L) :
    ∀ f1 f2 s, s.length ≤ f1 → s.length ≤ f2 →
      replaceAllF src tgt f1 s = replaceAllF src tgt f2 s := by
  intro f1
  induction f1 with
  | zero =>
    intro f2 s h1 h2
    cases s with
    | nil => cases f2 <;> rfl
    | cons c cs => simp at h1
  | succ g1 ih =>
    intro f2 s h1 h2
    cases s with
    | nil => cases f2 <;> rfl
    | cons c cs =>
      cases f2 with
      | zero => simp at h2
      | succ g2 =>
        simp only [replaceAllF]
        by_cases hsrc : src = []
        · simp only [if_pos hsrc]
          rw [ih g2 cs (by simp at h1; omega) (by simp at h2; omega)]
        · simp only [if_neg hsrc]
          by_cases hpre : src.isPrefixOf (c :: cs)
          · simp only [if_pos hpre]
            have hs : 0 < src.length := by
              cases src with
              | nil => exact absurd rfl hsrc
              | cons a as => simp
            have hc1 : cs.length ≤ g1 := by simp at h1; omega
            have hc2 : cs.length ≤ g2 := by simp at h2; omega
            have hd1 : ((c :: cs).drop src.length).length ≤ g1 := by
              simp only [List.length_drop, List.length_cons]; omega
            have hd2 : ((c :: cs).drop src.length).length ≤ g2 := by
              simp only [List.length_drop, List.length_cons]; omega
            rw [ih g2 _ hd1 hd2]
          · simp only [if_neg hpre]
            rw [ih g2 cs (by simp at h1; omega) (by simp at h2; omega)]

theorem replaceAll_nil (src tgt : L) :
    replaceAll src tgt [] = if src = [] then tgt else [] := rfl

theorem replaceAll_cons (src tgt : L) (c : Char) (cs : L) :
    replaceAll src tgt (c :: cs) =
      if src = [] then tgt ++ c :: replaceAll src tgt cs
      else if src.isPrefixOf (c :: cs) then
        tgt ++ replaceAll src tgt ((c :: cs).drop src.length)
      else c :: replaceAll src tgt cs := by
  show replaceAllF src tgt (cs.length + 1) (c :: cs) = _
  simp only [replaceAllF]
  by_cases hsrc : src = []
  · simp only [if_pos hsrc]
    rfl
  · simp only [if_neg hsrc]
    by_cases hpre : src.isPrefixOf (c :: cs)
    · simp only [if_pos hpre]
      have hs : 0 < src.length := by
        cases src with
        | nil => exact absurd rfl hsrc
        | cons a as => simp
      have hd : ((c :: cs).drop src.length).length ≤ cs.length := by
        simp only [List.length_drop, List.length_cons]; omega
      rw [replaceAllF_congr src tgt cs.length ((c :: cs).drop src.length).length _
        hd (le_refl _)]
      rfl
    · simp only [if_neg hpre]
      rfl

theorem splitMatch1_rest_len {s lm dm rest : L}
    (h : splitMatch1 s = some (lm, dm, rest)) : rest.length < s.length := by
  unfold splitMatch1 at h
  split at h
  · rename_i hcond
    obtain ⟨h1, h2, h3⟩ := hcond
    injection h with h'
    obtain ⟨e1, e2⟩ := Prod.mk.injEq .. ▸ h'
    have e3 : rest = ((s.dropWhile isAsciiLetter).drop
        ((s.dropWhile isAsciiLetter).takeWhile isPyDigit).length).tail := by
      have := congrArg Prod.snd (congrArg Prod.snd h')
      simpa using this.symm
    have hlen1 : (s.dropWhile isAsciiLetter).length ≤ s.length :=
      (s.dropWhile_sublist isAsciiLetter).length_le
    have hne : ((s.dropWhile isAsciiLetter).drop
        ((s.dropWhile isAsciiLetter).takeWhile isPyDigit).length) ≠ [] := by
      intro hx
      rw [hx] at h3
      simp at h3
    have hlen2 : ((s.dropWhile isAsciiLetter).drop
        ((s.dropWhile isAsciiLetter).takeWhile isPyDigit).length).length ≤ s.length := by
      calc _ ≤ (s.dropWhile isAsciiLetter).length := by simp
        _ ≤ s.length := hlen1
    have hpos : 0 < ((s.dropWhile isAsciiLetter).drop
        ((s.dropWhile isAsciiLetter).takeWhile isPyDigit).length).length :=
      List.length_pos.mpr hne
    rw [e3]
    simp only [List.length_tail]
    omega
  · exact absurd h (by simp)

theorem splitMatch2_rest_len {s lm dm rest : L}
    (h : splitMatch2 s = some (lm, dm, rest)) : rest.length < s.length := by
  unfold splitMatch2 at h
  split at h
  · rename_i hcond
    obtain ⟨h1, h2⟩ := hcond
    injection h with h'
    have e3 : rest = ((s.dropWhile isAsciiLetter).drop
        ((s.dropWhile isAsciiLetter).takeWhile isPyDigit).length) := by
      have := congrArg Prod.snd (congrArg Prod.snd h')
      simpa using this.symm
    have e1 : lm = s.takeWhile isAsciiLetter := by
      have := congrArg Prod.fst h'
      simpa using this.symm
    have hlm : s.takeWhile isAsciiLetter ≠ [] := e1 ▸ h1
    have hdm : (s.dropWhile isAsciiLetter).takeWhile isPyDigit ≠ [] := by
      have := congrArg Prod.fst (congrArg Prod.snd h')
      have e2 : dm = (s.dropWhile isAsciiLetter).takeWhile isPyDigit := by
        simpa using this.symm
      exact e2 ▸ h2
    have hdrop : (s.dropWhile isAsciiLetter).length < s.length := by
      cases s with
      | nil => simp at hlm
      | cons a as =>
        by_cases ha : isAsciiLetter a
        · rw [List.dropWhile_cons_of_pos ha]
          have := (as.dropWhile_sublist isAsciiLetter).length_le
          simp
          omega
        · rw [List.takeWhile_cons_of_neg ha] at hlm
          exact absurd rfl hlm
    rw [e3]
    simp only [List.length_drop]
    omega
  · exact absurd h (by simp)

theorem sub1F_congr :
    ∀ f1 f2 s, s.length ≤ f1 → s.length ≤ f2 → sub1F f1 s = sub1F f2 s := by
  intro f1
  induction f1 with
  | zero =>
    intro f2 s h1 h2
    cases s with
    | nil => cases f2 <;> rfl
    | cons c cs => simp at h1
  | succ g1 ih =>
    intro f2 s h1 h2
    cases s with
    | nil => cases f2 <;> rfl
    | cons c cs =>
      cases f2 with
      | zero => simp at h2
      | succ g2 =>
        simp only [sub1F]
        cases hm : splitMatch1 (c :: cs) with
        | some t =>
          obtain ⟨lm, dm, rest⟩ := t
          have hr : rest.length < (c :: cs).length := splitMatch1_rest_len hm
          simp only []
          rw [ih g2 rest (by simp at h1 hr ⊢; omega) (by simp at h2 hr ⊢; omega)]
        | none =>
          simp only []
          rw [ih g2 cs (by simp at h1; omega) (by simp at h2; omega)]

theorem sub2F_congr :
    ∀ f1 f2 s, s.length ≤ f1 → s.length ≤ f2 → sub2F f1 s = sub2F f2 s := by
  intro f1
  induction f1 with
  | zero =>
    intro f2 s h1 h2
    cases s with
    | nil => cases f2 <;> rfl
    | cons c cs => simp at h1
  | succ g1 ih =>
    intro f2 s h1 h2
    cases s with
    | nil => cases f2 <;> rfl
    | cons c cs =>
      cases f2 with
      | zero => simp at h2
      | succ g2 =>
        simp only [sub2F]
        cases hm : splitMatch2 (c :: cs) with
        | some t =>
          obtain ⟨lm, dm, rest⟩ := t
          have hr : rest.length < (c :: cs).length := splitMatch2_rest_len hm
          simp only []
          rw [ih g2 rest (by simp at h1 hr ⊢; omega) (by simp at h2 hr ⊢; omega)]
        | none =>
          simp only []
          rw [ih g2 cs (by simp at h1; omega) (by simp at h2; omega)]

theorem sub1_nil : sub1 [] = [] := rfl

theorem sub1_cons (c : Char) (cs : L) :
    sub1 (c :: cs) =
      match splitMatch1 (c :: cs) with
      | some (lm, dm, rest) => lm ++ ' ' :: dm ++ '%' :: sub1 rest
      | none => c :: sub1 cs := by
  show sub1F (cs.length + 1) (c :: cs) = _
  simp only [sub1F]
  cases hm : splitMatch1 (c :: cs) with
  | some t =>
    obtain ⟨lm, dm, rest⟩ := t
    have hr : rest.length < (c :: cs).length := splitMatch1_rest_len hm
    simp only []
    rw [sub1F_congr cs.length rest.length rest (by simp at hr ⊢; omega) (le_refl _)]
    rfl
  | none => rfl

theorem sub2_nil : sub2 [] = [] := rfl

theorem sub2_cons (c : Char) (cs : L) :
    sub2 (c :: cs) =
      match splitMatch2 (c :: cs) with
      | some (lm, dm, rest) => lm ++ ' ' :: dm ++ sub2 rest
      | none => c :: sub2 cs := by
  show sub2F (cs.length + 1) (c :: cs) = _
  simp only [sub2F]
  cases hm : splitMatch2 (c :: cs) with
  | some t =>
    obtain ⟨lm, dm, rest⟩ := t
    have hr : rest.length < (c :: cs).length := splitMatch2_rest_len hm
    simp only []
    rw [sub2F_congr cs.length rest.length rest (by simp at hr ⊢; omega) (le_refl _)]
    rfl
  | none => rfl

theorem jpRunsF_congr :
    ∀ f1 f2 s, s.length ≤ f1 → s.length ≤ f2 → jpRunsF f1 s = jpRunsF f2 s := by
  intro f1
  induction f1 with
  | zero =>
    intro f2 s h1 h2
    cases s with
    | nil => cases f2 <;> rfl
    | cons c cs => simp at h1
  | succ g1 ih =>
    intro f2 s h1 h2
    cases s with
    | nil => cases f2 <;> rfl
    | cons c cs =>
      cases f2 with
      | zero => simp at h2
      | succ g2 =>
        simp only [jpRunsF]
        have hdw : (cs.dropWhile isJP).length ≤ cs.length :=
          (cs.dropWhile_sublist isJP).length_le
        by_cases hc : isJP c
        · simp only [if_pos hc]
          rw [ih g2 (cs.dropWhile isJP) (by simp at h1; omega) (by simp at h2; omega)]
        · simp only [if_neg hc]
          rw [ih g2 cs (by simp at h1; omega) (by simp at h2; omega)]

theorem jpRuns_nil : jpRuns [] = [] := rfl

theorem jpRuns_cons (c : Char) (cs : L) :
    jpRuns (c :: cs) =
      if isJP c then (c :: cs.takeWhile isJP) :: jpRuns (cs.dropWhile isJP)
      else jpRuns cs := by
  show jpRunsF (cs.length + 1) (c :: cs) = _
  simp only [jpRunsF]
  have hdw : (cs.dropWhile isJP).length ≤ cs.length :=
    (cs.dropWhile_sublist isJP).length_le
  by_cases hc : isJP c
  · simp only [if_pos hc]
    rw [jpRunsF_congr cs.length (cs.dropWhile isJP).length (cs.dropWhile isJP)
      hdw (le_refl _)]
    rfl
  · simp only [if_neg hc]
    rfl

/-! #### Occurrences and `str.replace` basics -/

theorem isPrefixOf_iff_ex {r s : L} : r.isPrefixOf s = true ↔ ∃ t, r ++ t = s := by
  induction r generalizing s with
  | nil => simp [List.isPrefixOf]
  | cons a as ih =>
    cases s with
    | nil => simp [List.isPrefixOf]
    | cons b bs =>
      simp only [List.isPrefixOf, Bool.and_eq_true, beq_iff_eq, ih,
        List.cons_append, List.cons.injEq]
      constructor
      · rintro ⟨rfl, t, rfl⟩
        exact ⟨t, rfl, rfl⟩
      · rintro ⟨t, rfl, rfl⟩
        exact ⟨rfl, t, rfl⟩

theorem occ_cons_iff {r : L} {c : Char} {cs : L} :
    Occ r (c :: cs) ↔ (∃ t, r ++ t = c :: cs) ∨ Occ r cs := by
  constructor
  · rintro ⟨a, b, hab⟩
    cases a with
    | nil => exact Or.inl ⟨b, by simpa using hab.symm⟩
    | cons x a' =>
      right
      simp only [List.cons_append, List.cons.injEq] at hab
      exact ⟨a', b, hab.2⟩
  · rintro (⟨t, ht⟩ | ⟨a, b, hab⟩)
    · exact ⟨[], t, by simpa using ht.symm⟩
    · exact ⟨c :: a, b, by simp [hab]⟩

theorem occB_iff (r s : L) : occB r s = true ↔ Occ r s := by
  induction s with
  | nil =>
    simp only [occB, List.isEmpty_iff]
    constructor
    · rintro rfl
      exact ⟨[], [], rfl⟩
    · rintro ⟨a, b, hab⟩
      rcases List.append_eq_nil.mp ((List.append_eq_nil.mp hab.symm).1) with ⟨-, h2⟩
      exact h2
  | cons c cs ih =>
    simp only [occB, Bool.or_eq_true, ih, occ_cons_iff, isPrefixOf_iff_ex]

instance decOcc (r s : L) : Decidable (Occ r s) :=
  decidable_of_iff _ (occB_iff r s)

theorem occ_mono_cons {r : L} {c : Char} {cs : L} (h : Occ r cs) : Occ r (c :: cs) :=
  occ_cons_iff.mpr (Or.inr h)

theorem pre_of_isPrefixOf {r s : L} (h : r.isPrefixOf s = true) :
    r ++ s.drop r.length = s := by
  obtain ⟨t, rfl⟩ := isPrefixOf_iff_ex.mp h
  rw [List.drop_left]

theorem replaceAll_self (src : L) : ∀ s, replaceAll src src s = s := by
  have H : ∀ n s, s.length ≤ n → replaceAll src src s = s := by
    intro n
    induction n with
    | zero =>
      intro s h
      have : s = [] := by cases s with
        | nil => rfl
        | cons c cs => simp at h
      subst this
      rw [replaceAll_nil]
      split <;> simp_all
    | succ n ih =>
      intro s h
      cases s with
      | nil =>
        rw [replaceAll_nil]
        split <;> simp_all
      | cons c cs =>
        rw [replaceAll_cons]
        by_cases hsrc : src = []
        · subst hsrc
          simp [ih cs (by simp at h; omega)]
        · simp only [if_neg hsrc]
          by_cases hpre : src.isPrefixOf (c :: cs)
          · simp only [if_pos hpre]
            have hs : 0 < src.length := by
              cases src with
              | nil => exact absurd rfl hsrc
              | cons a as => simp
            have hd : ((c :: cs).drop src.length).length ≤ n := by
              simp only [List.length_drop, List.length_cons]
              simp only [List.length_cons] at h
              omega
            rw [ih _ hd]
            exact pre_of_isPrefixOf hpre
          · simp only [if_neg hpre]
            rw [ih cs (by simp at h; omega)]
  exact fun s => H s.length s (le_refl _)

theorem replaceAll_of_not_occ {src tgt : L} (h : ¬ Occ src s) :
    replaceAll src tgt s = s := by
  by_cases hsrc : src = []
  · exact absurd ⟨[], s, by simp [hsrc]⟩ h
  · revert h
    have H : ∀ n s, s.length ≤ n → ¬ Occ src s → replaceAll src tgt s = s := by
      intro n
      induction n with
      | zero =>
        intro s hl h
        have : s = [] := by cases s with
          | nil => rfl
          | cons c cs => simp at hl
        subst this
        rw [replaceAll_nil, if_neg hsrc]
      | succ n ih =>
        intro s hl h
        cases s with
        | nil => rw [replaceAll_nil, if_neg hsrc]
        | cons c cs =>
          rw [replaceAll_cons, if_neg hsrc]
          by_cases hpre : src.isPrefixOf (c :: cs)
          · obtain ⟨t, ht⟩ := isPrefixOf_iff_ex.mp hpre
            exact absurd ⟨[], t, by simp [ht.symm]⟩ h
          · simp only [if_neg hpre]
            rw [ih cs (by simp at hl; omega) (fun hc => h (occ_mono_cons hc))]
    exact H s.length s (le_refl _)

theorem mem_replaceAll {src tgt s : L} {c : Char}
    (h : c ∈ replaceAll src tgt s) : c ∈ tgt ∨ c ∈ s := by
  revert h
  have H : ∀ n s, s.length ≤ n → c ∈ replaceAll src tgt s → c ∈ tgt ∨ c ∈ s := by
    intro n
    induction n with
    | zero =>
      intro s hl h
      have : s = [] := by cases s with
        | nil => rfl
        | cons x xs => simp at hl
      subst this
      rw [replaceAll_nil] at h
      split at h
      · exact Or.inl h
      · simp at h
    | succ n ih =>
      intro s hl h
      cases s with
      | nil =>
        rw [replaceAll_nil] at h
        split at h
        · exact Or.inl h
        · simp at h
      | cons x xs =>
        rw [replaceAll_cons] at h
        by_cases hsrc : src = []
        · rw [if_pos hsrc] at h
          rcases List.mem_append.mp h with h1 | h1
          · exact Or.inl h1
          · rcases List.mem_cons.mp h1 with h2 | h2
            · exact Or.inr (by simp [h2])
            · rcases ih xs (by simp at hl; omega) h2 with h3 | h3
              · exact Or.inl h3
              · exact Or.inr (List.mem_cons_of_mem _ h3)
        · rw [if_neg hsrc] at h
          by_cases hpre : src.isPrefixOf (x :: xs)
          · rw [if_pos hpre] at h
            have hs : 0 < src.length := by
              cases src with
              | nil => exact absurd rfl hsrc
              | cons a as => simp
            rcases List.mem_append.mp h with h1 | h1
            · exact Or.inl h1
            · have hd : ((x :: xs).drop src.length).length ≤ n := by
                simp only [List.length_drop, List.length_cons]
                simp only [List.length_cons] at hl
                omega
              rcases ih _ hd h1 with h3 | h3
              · exact Or.inl h3
              · exact Or.inr (List.mem_of_mem_drop h3)
          · rw [if_neg hpre] at h
            rcases List.mem_cons.mp h with h2 | h2
            · exact Or.inr (by simp [h2])
            · rcases ih xs (by simp at hl; omega) h2 with h3 | h3
              · exact Or.inl h3
              · exact Or.inr (List.mem_cons_of_mem _ h3)
  exact H s.length s (le_refl _)

theorem replaceAll_single (k : Char) (v : L) :
    ∀ s, replaceAll [k] v s = charMapAll (fun c => if c = k then v else [c]) s := by
  intro s
  induction s with
  | nil => rfl
  | cons c cs ih =>
    rw [replaceAll_cons]
    have hne : ([k] : L) ≠ [] := by simp
    rw [if_neg hne]
    by_cases hck : c = k
    · subst hck
      have hpre : ([c] : L).isPrefixOf (c :: cs) = true := by
        simp [List.isPrefixOf]
      rw [if_pos hpre]
      simp [charMapAll, ih]
    · have hpre : ([k] : L).isPrefixOf (c :: cs) = false := by
        simp [List.isPrefixOf]
        exact fun h => absurd h.symm hck
      rw [if_neg (by simp [hpre])]
      simp [charMapAll, if_neg hck, ih]

theorem mem_charMapAll {f : Char → L} {s : L} {c : Char} :
    c ∈ charMapAll f s ↔ ∃ d ∈ s, c ∈ f d := by
  induction s with
  | nil => simp [charMapAll]
  | cons x xs ih =>
    simp only [charMapAll, List.mem_append, ih, List.mem_cons]
    constructor
    · rintro (h | ⟨d, hd, hc⟩)
      · exact ⟨x, Or.inl rfl, h⟩
      · exact ⟨d, Or.inr hd, hc⟩
    · rintro ⟨d, (rfl | hd), hc⟩
      · exact Or.inl hc
      · exact Or.inr ⟨d, hd, hc⟩

theorem charMapAll_id {f : Char → L} {s : L} (h : ∀ c ∈ s, f c = [c]) :
    charMapAll f s = s := by
  induction s with
  | nil => rfl
  | cons x xs ih =>
    simp only [charMapAll, h x (by simp)]
    rw [ih (fun c hc => h c (by simp [hc]))]
    rfl

/-! #### Sorting and sequential substitution -/

theorem mem_insertD {e p : Entry} {es : List Entry} :
    p ∈ insertD e es ↔ p = e ∨ p ∈ es := by
  induction es with
  | nil => simp [insertD]
  | cons f fs ih =>
    simp only [insertD]
    split <;> simp only [List.mem_cons, ih] <;> tauto

theorem mem_sortDescLen {p : Entry} {es : List Entry} :
    p ∈ sortDescLen es ↔ p ∈ es := by
  induction es with
  | nil => simp [sortDescLen]
  | cons e es ih =>
    simp only [sortDescLen, mem_insertD, ih, List.mem_cons]

theorem applyEntries_cons (p : Entry) (ps : List Entry) (s : L) :
    applyEntries (p :: ps) s = applyEntries ps (replaceAll p.1 p.2 s) := rfl

theorem applyEntries_id {entries : List Entry} {s : L}
    (h : ∀ p ∈ entries, ¬ Occ p.1 s) : applyEntries entries s = s := by
  induction entries with
  | nil => rfl
  | cons p ps ih =>
    rw [applyEntries_cons, replaceAll_of_not_occ (h p (by simp))]
    exact ih (fun q hq => h q (by simp [hq]))

/-- C10: `translate_text` and `translate_care_instructions` return the empty
string unchanged: the guard `if not text` short-circuits before any
dictionary or normalization pass, for every dictionary snapshot.  (The
non-string half of the guard is a Python dynamic-typing case with no
counterpart in this typed embedding; the same guard line handles it the
same way.) -/
theorem claim_C10 (entries careLabels : List Entry) :
    translate_text entries [] = [] ∧ translate_care_instructions careLabels [] = [] := by
  constructor
  · simp [translate_text]
  · simp [translate_care_instructions]

/-- C8 (confirmed): `translate_care_instructions` performs only care-label
dictionary substitution and no normalization: whenever no care-label source
term occurs in the text, the text is returned exactly as given — fullwidth
characters, missing punctuation spacing and missing unit spacing included. -/
theorem claim_C8 (careLabels : List Entry) (s : L)
    (h : ∀ p ∈ careLabels, ¬ Occ p.1 s) :
    translate_care_instructions careLabels s = s := by
  unfold translate_care_instructions
  split
  · rfl
  · exact applyEntries_id (fun p hp => h p (mem_sortDescLen.mp hp))

theorem claim_C8_wit :
    (∀ p ∈ [(lc "ドライ", lc "Dry")], ¬ Occ p.1 (lc "１００％（Ｓ），")) ∧
    translate_care_instructions [(lc "ドライ", lc "Dry")] (lc "１００％（Ｓ），") =
      lc "１００％（Ｓ），" :=
  ⟨by decide, claim_C8 [(lc "ドライ", lc "Dry")] (lc "１００％（Ｓ），") (by decide)⟩

/-- C7 (amended): the record written for a parsed row has exactly 7 fields
when the row has the materials column, exactly 2 when it is nonempty but
lacks that column, and exactly 1 field (a single empty cell) when the row is
empty — the empty-row branch of `process_csv_file` writes `['']`. -/
theorem claim_C7 (translations careLabels : List Entry) (materialsColumn : Nat)
    (row : List L) :
    (row = [] → (process_row translations careLabels materialsColumn row).length = 1) ∧
    (row ≠ [] → materialsColumn < row.length →
      (process_row translations careLabels materialsColumn row).length = 7) ∧
    (row ≠ [] → ¬ materialsColumn < row.length →
      (process_row translations careLabels materialsColumn row).length = 2) := by
  refine ⟨fun h => ?_, fun h1 h2 => ?_, fun h1 h2 => ?_⟩
  · simp [process_row, h]
  · simp [process_row, h1, h2]
  · simp [process_row, h1, h2]

theorem claim_C7_wit :
    (process_row [] [] 1 [lc "a", lc "b"]).length = 7 ∧
    (process_row [] [] 1 [lc "a"]).length = 2 :=
  ⟨(claim_C7 [] [] 1 [lc "a", lc "b"]).2.1 (by decide) (by decide),
   (claim_C7 [] [] 1 [lc "a"]).2.2 (by decide) (by decide)⟩

/-- C7 counterexample: an empty row (a blank CSV line) has length `0 ≤ 1`,
so the claim predicts a strictly 2-field record, but the code writes the
1-field record `['']`. -/
theorem claim_C7_cex :
    ([] : List L).length ≤ 1 ∧
    (process_row baseTranslations [] 1 []).length = 1 ∧
    (process_row baseTranslations [] 1 []).length ≠ 2 := by
  refine ⟨by decide, by decide, by decide⟩

/-- C2 (confirmed): with two entries whose source terms have different
lengths, the stable descending-length sort always applies the longer entry's
whole-text pass first — whichever order the snapshot lists them in — so the
shorter term only ever sees text in which every occurrence of the longer
term has already been replaced.  On the worked example, the base dictionary
(which holds both `丈 → Length` and `総丈 → Total Length`) translates
`総丈78cm` to `Total Length 78cm`: the longer entry's translation appears
and no `丈` survives for the shorter entry to fragment. -/
theorem claim_C2 (s1 t1 s2 t2 : L) (h : s1.length < s2.length) :
    (∀ input,
      applyEntries (sortDescLen [(s1, t1), (s2, t2)]) input =
        replaceAll s1 t1 (replaceAll s2 t2 input) ∧
      applyEntries (sortDescLen [(s2, t2), (s1, t1)]) input =
        replaceAll s1 t1 (replaceAll s2 t2 input)) ∧
    translate_text baseTranslations (lc "総丈78cm") = lc "Total Length 78cm" ∧
    Occ (lc "Total Length") (translate_text baseTranslations (lc "総丈78cm")) ∧
    ¬ Occ (lc "丈") (translate_text baseTranslations (lc "総丈78cm")) := by
  refine ⟨fun input => ⟨?_, ?_⟩, by decide, by decide, by decide⟩
  · simp [sortDescLen, insertD, if_pos h, applyEntries]
  · have hn : ¬ s2.length < s1.length := by omega
    simp [sortDescLen, insertD, if_neg hn, applyEntries]

theorem claim_C2_wit :
    (lc "丈").length < (lc "総丈").length ∧
    applyEntries (sortDescLen [(lc "丈", lc "Length"), (lc "総丈", lc "Total Length")])
        (lc "総丈78cm") =
      replaceAll (lc "丈") (lc "Length")
        (replaceAll (lc "総丈") (lc "Total Length") (lc "総丈78cm")) ∧
    translate_text baseTranslations (lc "総丈78cm") = lc "Total Length 78cm" :=
  ⟨by decide,
   ((claim_C2 (lc "丈") (lc "Length") (lc "総丈") (lc "Total Length")
      (by decide)).1 (lc "総丈78cm")).1,
   (claim_C2 (lc "丈") (lc "Length") (lc "総丈") (lc "Total Length")
      (by decide)).2.1⟩

/-! #### Line splitting and joining -/

theorem splitNL_ne_nil (s : L) : splitNL s ≠ [] := by
  cases s with
  | nil => simp [splitNL]
  | cons c cs =>
    simp only [splitNL]
    split
    · simp
    · cases h : splitNL cs <;> simp

theorem mem_splitNL {s : L} {l : L} {c : Char}
    (hl : l ∈ splitNL s) (hc : c ∈ l) : c ∈ s := by
  induction s generalizing l with
  | nil =>
    simp [splitNL] at hl
    subst hl
    simp at hc
  | cons x xs ih =>
    simp only [splitNL] at hl
    by_cases hx : x = '\n'
    · rw [if_pos hx] at hl
      rcases List.mem_cons.mp hl with rfl | h
      · simp at hc
      · exact List.mem_cons_of_mem _ (ih h hc)
    · rw [if_neg hx] at hl
      cases hsp : splitNL xs with
      | nil => exact absurd hsp (splitNL_ne_nil xs)
      | cons l0 ls =>
        rw [hsp] at hl
        rcases List.mem_cons.mp hl with rfl | h
        · rcases List.mem_cons.mp hc with rfl | h2
          · simp
          · have : l0 ∈ splitNL xs := by rw [hsp]; simp
            exact List.mem_cons_of_mem _ (ih this h2)
        · have : l ∈ splitNL xs := by rw [hsp]; simp [h]
          exact List.mem_cons_of_mem _ (ih this hc)

theorem mem_joinNL {ls : List L} {l : L} {c : Char}
    (hl : l ∈ ls) (hc : c ∈ l) : c ∈ joinNL ls := by
  induction ls with
  | nil => simp at hl
  | cons x xs ih =>
    cases xs with
    | nil =>
      simp at hl
      subst hl
      simpa [joinNL] using hc
    | cons y ys =>
      simp only [joinNL]
      rcases List.mem_cons.mp hl with rfl | h
      · exact List.mem_append.mpr (Or.inl hc)
      · exact List.mem_append.mpr (Or.inr (List.mem_cons_of_mem _ (ih h)))

theorem mem_pyStrip {s : L} {c : Char} (h : c ∈ pyStrip s) : c ∈ s := by
  unfold pyStrip at h
  rw [List.mem_reverse] at h
  have h2 := (List.dropWhile_sublist pyIsSpace).subset h
  rw [List.mem_reverse] at h2
  exact (List.dropWhile_sublist pyIsSpace).subset h2

theorem splitNL_no_nl {l : L} (h : '\n' ∉ l) : splitNL l = [l] := by
  induction l with
  | nil => rfl
  | cons c cs ih =>
    simp only [splitNL]
    have hc : ¬ c = '\n' := fun he => h (by simp [he])
    rw [if_neg hc, ih (fun hm => h (by simp [hm]))]

theorem splitNL_cons (c : Char) (cs : L) :
    splitNL (c :: cs) =
      if c = '\n' then [] :: splitNL cs
      else match splitNL cs with
        | [] => [[c]]
        | l :: ls => (c :: l) :: ls := rfl

theorem splitNL_append_nl {l t : L} (h : '\n' ∉ l) :
    splitNL (l ++ '\n' :: t) = l :: splitNL t := by
  induction l with
  | nil => simp [splitNL]
  | cons c cs ih =>
    have hc : ¬ c = '\n' := fun he => h (by simp [he])
    rw [List.cons_append, splitNL_cons, if_neg hc, ih (fun hm => h (by simp [hm]))]

theorem splitNL_joinNL {ls : List L} (hne : ls ≠ [])
    (h : ∀ l ∈ ls, '\n' ∉ l) : splitNL (joinNL ls) = ls := by
  induction ls with
  | nil => exact absurd rfl hne
  | cons x xs ih =>
    cases xs with
    | nil => exact splitNL_no_nl (h x (by simp))
    | cons y ys =>
      simp only [joinNL]
      rw [splitNL_append_nl (h x (by simp))]
      rw [ih (by simp) (fun l hl => h l (by simp [hl]))]

/-! #### The care/country walk -/

theorem countryFold_id {acc : L} {v : List L}
    (hv : ∀ l ∈ v, isCountryLike l = false) : countryFold acc v = acc := by
  induction v generalizing acc with
  | nil => rfl
  | cons l ls ih =>
    unfold countryFold
    simp only [List.foldl_cons, hv l (by simp)]
    exact ih (fun q hq => hv q (by simp [hq]))

theorem countryFold_append (acc : L) (u v : List L) :
    countryFold acc (u ++ v) = countryFold (countryFold acc u) v := by
  unfold countryFold
  rw [List.foldl_append]

theorem countryFold_last {acc : L} {y : L} {v : List L}
    (hy : isCountryLike y = true) (hv : ∀ l ∈ v, isCountryLike l = false) :
    countryFold acc (y :: v) = pyStrip y := by
  unfold countryFold
  simp only [List.foldl_cons, hy, if_pos]
  exact countryFold_id hv

theorem careCountryWalk_acc (lines : List L) : ∀ cl co,
    lines.foldl
      (fun acc l => if isCountryLike l then (acc.1, pyStrip l) else (acc.1 ++ [l], acc.2))
      (cl, co)
    = (cl ++ lines.filter (fun l => !isCountryLike l), countryFold co lines) := by
  induction lines with
  | nil => intro cl co; simp [countryFold]
  | cons l ls ih =>
    intro cl co
    cases hl : isCountryLike l
    · have hf : List.filter (fun q => !isCountryLike q) (l :: ls) =
          l :: List.filter (fun q => !isCountryLike q) ls := by
        simp [List.filter_cons, hl]
      have hcf : countryFold co (l :: ls) = countryFold co ls := by
        simp [countryFold, hl]
      simp only [List.foldl_cons, hl, Bool.false_eq_true, if_false, ih, hf, hcf]
      simp [List.append_assoc]
    · have hf : List.filter (fun q => !isCountryLike q) (l :: ls) =
          List.filter (fun q => !isCountryLike q) ls := by
        simp [List.filter_cons, hl]
      have hcf : countryFold co (l :: ls) = countryFold (pyStrip l) ls := by
        simp [countryFold, hl]
      simp only [List.foldl_cons, hl, if_true, ih, hf, hcf]

theorem careCountryWalk_eq (lines : List L) :
    careCountryWalk lines =
      (lines.filter (fun l => !isCountryLike l), countryFold [] lines) := by
  unfold careCountryWalk
  rw [careCountryWalk_acc]
  simp

/-! #### C5: segmentation with no marker -/

/-- C5 (amended): when no line of the cell contains `※`,
`split_materials_content` returns the cell *stripped of leading and trailing
whitespace* as `materials` (so the entire cell exactly when the cell has no
surrounding whitespace), and empty `care_instructions` and `country`. -/
theorem claim_C5 (content : L) (h : '※' ∉ content) :
    split_materials_content content = (pyStrip content, [], []) := by
  by_cases hc : content = []
  · subst hc
    rfl
  · have hidx : (splitNL (pyStrip content)).findIdx?
        (fun l => decide ('※' ∈ l)) = none := by
      rw [List.findIdx?_eq_none_iff]
      intro l hl
      simp only [decide_eq_false_iff_not]
      intro hm
      exact h (mem_pyStrip (mem_splitNL hl hm))
    simp only [split_materials_content, if_neg hc, hidx]

theorem claim_C5_wit :
    ('※' ∉ lc "コットン100%") ∧
    split_materials_content (lc "コットン100%") = (pyStrip (lc "コットン100%"), [], []) :=
  ⟨by decide, claim_C5 (lc "コットン100%") (by decide)⟩

/-- C5 counterexample: for the marker-free cell `" a"` the code returns the
stripped text `"a"`, not the entire cell `" a"` as the claim states. -/
theorem claim_C5_cex :
    split_materials_content (lc " a") = (lc "a", [], []) ∧
    split_materials_content (lc " a") ≠ (lc " a", [], []) := by
  exact ⟨by decide, by decide⟩

/-! #### C1: the tie-break walk discards superseded country lines -/

/-- C1 (amended): among the lines from the first marker line onward, each
"country-like" line (nonempty after strip and not starting with `※`)
overwrites the running country, so the last one, `Y`, wins; but a superseded
earlier country-like line `X` is *discarded outright* — it is not folded
into `care_instructions`, which collects exactly the non-country-like lines
(marker-prefixed or blank), in original order. -/
theorem claim_C1 (mat : List L) (m X Y : L) (t1 t2 t3 : List L)
    (hNoNL : ∀ l ∈ mat ++ m :: (t1 ++ X :: (t2 ++ Y :: t3)), '\n' ∉ l)
    (hmat : ∀ l ∈ mat, '※' ∉ l)
    (hm : '※' ∈ m)
    (hStrip : pyStrip (joinNL (mat ++ m :: (t1 ++ X :: (t2 ++ Y :: t3)))) =
      joinNL (mat ++ m :: (t1 ++ X :: (t2 ++ Y :: t3))))
    (hX : isCountryLike X = true) (hY : isCountryLike Y = true)
    (ht3 : ∀ l ∈ t3, isCountryLike l = false) :
    (split_materials_content (joinNL (mat ++ m :: (t1 ++ X :: (t2 ++ Y :: t3))))).2.2
        = pyStrip Y ∧
    (split_materials_content (joinNL (mat ++ m :: (t1 ++ X :: (t2 ++ Y :: t3))))).2.1
        = pyStrip (joinNL
            ((m :: (t1 ++ X :: (t2 ++ Y :: t3))).filter (fun l => !isCountryLike l))) ∧
    X ∉ (m :: (t1 ++ X :: (t2 ++ Y :: t3))).filter (fun l => !isCountryLike l) ∧
    (split_materials_content (joinNL (mat ++ m :: (t1 ++ X :: (t2 ++ Y :: t3))))).1
        = pyStrip (joinNL mat) := by
  have hmmem : m ∈ mat ++ m :: (t1 ++ X :: (t2 ++ Y :: t3)) := by simp
  have hcmem : '※' ∈ joinNL (mat ++ m :: (t1 ++ X :: (t2 ++ Y :: t3))) :=
    mem_joinNL hmmem hm
  have hcne : joinNL (mat ++ m :: (t1 ++ X :: (t2 ++ Y :: t3))) ≠ [] := by
    intro he
    rw [he] at hcmem
    simp at hcmem
  have hlines : splitNL (pyStrip (joinNL (mat ++ m :: (t1 ++ X :: (t2 ++ Y :: t3)))))
      = mat ++ m :: (t1 ++ X :: (t2 ++ Y :: t3)) := by
    rw [hStrip]
    exact splitNL_joinNL (by simp) hNoNL
  have hidx : (mat ++ m :: (t1 ++ X :: (t2 ++ Y :: t3))).findIdx?
      (fun l => decide ('※' ∈ l)) = some mat.length := by
    rw [List.findIdx?_append]
    have h1 : mat.findIdx? (fun l => decide ('※' ∈ l)) = none := by
      rw [List.findIdx?_eq_none_iff]
      intro l hl
      simp only [decide_eq_false_iff_not]
      exact hmat l hl
    have h2 : (m :: (t1 ++ X :: (t2 ++ Y :: t3))).findIdx?
        (fun l => decide ('※' ∈ l)) = some 0 := by
      rw [List.findIdx?_cons]
      simp [hm]
    rw [h1, h2]
    simp
  have htake : (mat ++ m :: (t1 ++ X :: (t2 ++ Y :: t3))).take mat.length = mat :=
    List.take_left mat _
  have hdrop : (mat ++ m :: (t1 ++ X :: (t2 ++ Y :: t3))).drop mat.length
      = m :: (t1 ++ X :: (t2 ++ Y :: t3)) :=
    List.drop_left mat _
  have hwalk := careCountryWalk_eq (m :: (t1 ++ X :: (t2 ++ Y :: t3)))
  have hco : countryFold [] (m :: (t1 ++ X :: (t2 ++ Y :: t3))) = pyStrip Y := by
    have hshape : m :: (t1 ++ X :: (t2 ++ Y :: t3))
        = ((m :: t1) ++ (X :: t2)) ++ (Y :: t3) := by simp
    rw [hshape, countryFold_append]
    exact countryFold_last hY ht3
  have hmain : split_materials_content (joinNL (mat ++ m :: (t1 ++ X :: (t2 ++ Y :: t3))))
      = (pyStrip (joinNL mat),
         pyStrip (joinNL
           ((m :: (t1 ++ X :: (t2 ++ Y :: t3))).filter (fun l => !isCountryLike l))),
         pyStrip Y) := by
    simp only [split_materials_content, if_neg hcne, hlines, hidx, htake, hdrop,
      hwalk, hco]
  refine ⟨by rw [hmain], by rw [hmain], ?_, by rw [hmain]⟩
  intro hmem
  have := (List.mem_filter.mp hmem).2
  rw [hX] at this
  simp at this

theorem claim_C1_wit :
    (split_materials_content (joinNL
        ([] ++ lc "※A" :: ([] ++ lc "X" :: ([lc "※B"] ++ lc "Y" :: []))))).2.2
      = pyStrip (lc "Y") ∧
    (split_materials_content (joinNL
        ([] ++ lc "※A" :: ([] ++ lc "X" :: ([lc "※B"] ++ lc "Y" :: []))))).2.1
      = pyStrip (joinNL
          ((lc "※A" :: ([] ++ lc "X" :: ([lc "※B"] ++ lc "Y" :: []))).filter
            (fun l => !isCountryLike l))) ∧
    lc "X" ∉ (lc "※A" :: ([] ++ lc "X" :: ([lc "※B"] ++ lc "Y" :: []))).filter
        (fun l => !isCountryLike l) ∧
    (split_materials_content (joinNL
        ([] ++ lc "※A" :: ([] ++ lc "X" :: ([lc "※B"] ++ lc "Y" :: []))))).1
      = pyStrip (joinNL ([] : List L)) :=
  claim_C1 [] (lc "※A") (lc "X") (lc "Y") [] [lc "※B"] []
    (by decide) (by decide) (by decide) (by decide) (by decide) (by decide) (by decide)

/-- C1 counterexample: on the cell `"※A\nX\n※B\nY"` the code returns
`care_instructions = "※A\n※B"` — the superseded country-like line `X` does
not occur anywhere in it, contradicting the claim that `X` is folded into
the care instructions alongside the marker lines. -/
theorem claim_C1_cex :
    split_materials_content (lc "※A\nX\n※B\nY") = (lc "", lc "※A\n※B", lc "Y") ∧
    ¬ Occ (lc "X") (lc "※A\n※B") := by
  exact ⟨by decide, by decide⟩


/-! #### C6: punctuation spacing -/

theorem addAfter_cons_ne {p c : Char} {cs : L} (h : c ≠ p) :
    addAfter p (c :: cs) = c :: addAfter p cs := by
  cases cs with
  | nil => simp [addAfter, h]
  | cons d r =>
    simp only [addAfter]
    rw [if_neg (by intro hc; exact h hc.1)]

theorem addAfter_cons_self_space {p d : Char} {r : L} (hd : pyIsSpace d = true) :
    addAfter p (p :: d :: r) = p :: addAfter p (d :: r) := by
  simp only [addAfter]
  rw [if_neg (by rintro ⟨-, hns⟩; exact hns hd)]

theorem addAfter_cons_self_nonspace {p d : Char} {r : L} (hd : pyIsSpace d = false) :
    addAfter p (p :: d :: r) = p :: ' ' :: addAfter p (d :: r) := by
  simp [addAfter, hd]

theorem goodB_cons_of_ne {p x : Char} {xs : L} (hx : x ≠ p)
    (h : goodB p xs = true) : goodB p (x :: xs) = true := by
  cases xs with
  | nil => simp [goodB, hx]
  | cons y ys =>
    simp only [goodB, Bool.and_eq_true, Bool.or_eq_true, bne_iff_ne]
    exact ⟨Or.inl hx, h⟩

theorem goodB_cons_of_space {p x d : Char} {xs : L} (hd : pyIsSpace d = true)
    (h : goodB p (d :: xs) = true) : goodB p (x :: d :: xs) = true := by
  simp only [goodB, Bool.and_eq_true, Bool.or_eq_true]
  exact ⟨Or.inr hd, h⟩

theorem goodB_of_cons {p c : Char} {cs : L} (h : goodB p (c :: cs) = true) :
    goodB p cs = true := by
  cases cs with
  | nil => rfl
  | cons d r =>
    simp only [goodB, Bool.and_eq_true] at h
    exact h.2

theorem space_ne_of_not_space {p : Char} (hp : pyIsSpace p = false) : ' ' ≠ p := by
  intro he
  rw [← he] at hp
  simp [pyIsSpace] at hp

theorem good_addAfter_self (p : Char) (hp : pyIsSpace p = false) :
    ∀ s, goodB p (addAfter p s) = true := by
  intro s
  induction s with
  | nil => rfl
  | cons c cs ih =>
    by_cases hc : c = p
    · cases cs with
      | nil =>
        rw [hc]
        show goodB p (if p = p then [p, ' '] else [p]) = true
        rw [if_pos rfl]
        show ((p != p || pyIsSpace ' ') && goodB p [' ']) = true
        have h1 : pyIsSpace ' ' = true := by simp [pyIsSpace]
        have h2 : goodB p [' '] = true := by
          show (' ' != p) = true
          simp [space_ne_of_not_space hp]
        simp [h1, h2]
      | cons d r =>
        rw [hc]
        by_cases hd : pyIsSpace d
        · rw [addAfter_cons_self_space hd]
          have hdp : d ≠ p := by
            intro he
            rw [he] at hd
            rw [hp] at hd
            simp at hd
          rw [addAfter_cons_ne hdp] at ih ⊢
          exact goodB_cons_of_space hd ih
        · rw [addAfter_cons_self_nonspace (by simpa using hd)]
          refine goodB_cons_of_space (by simp [pyIsSpace]) ?_
          exact goodB_cons_of_ne (space_ne_of_not_space hp) ih
    · rw [addAfter_cons_ne hc]
      exact goodB_cons_of_ne hc ih

theorem good_addAfter_other {p q : Char} (hpq : p ≠ q)
    (hp : pyIsSpace p = false) (hq : pyIsSpace q = false) :
    ∀ s, goodB p s = true → goodB p (addAfter q s) = true := by
  intro s
  induction s with
  | nil => intro h; exact h
  | cons c cs ih =>
    intro h
    by_cases hc : c = q
    · cases cs with
      | nil =>
        rw [hc]
        show goodB p (if q = q then [q, ' '] else [q]) = true
        rw [if_pos rfl]
        refine goodB_cons_of_ne (Ne.symm hpq) ?_
        show (' ' != p) = true
        simp [space_ne_of_not_space hp]
      | cons d r =>
        have h2 : goodB p (d :: r) = true := goodB_of_cons h
        rw [hc]
        by_cases hd : pyIsSpace d
        · rw [addAfter_cons_self_space hd]
          have hdq : d ≠ q := by
            intro he
            rw [he] at hd
            rw [hq] at hd
            simp at hd
          rw [addAfter_cons_ne hdq] at ih ⊢
          exact goodB_cons_of_space hd (ih h2)
        · rw [addAfter_cons_self_nonspace (by simpa using hd)]
          refine goodB_cons_of_ne (Ne.symm hpq) ?_
          exact goodB_cons_of_ne (space_ne_of_not_space hp) (ih h2)
    · rw [addAfter_cons_ne hc]
      cases cs with
      | nil =>
        have : c ≠ p → True := fun _ => trivial
        simpa [addAfter] using h
      | cons d r =>
        have h1 : (c != p || pyIsSpace d) = true := by
          simp only [goodB, Bool.and_eq_true] at h
          exact h.1
        have h2 : goodB p (d :: r) = true := goodB_of_cons h
        by_cases hcp : c = p
        · have hd : pyIsSpace d = true := by
            rw [hcp] at h1
            simpa using h1
          have hdq : d ≠ q := by
            intro he
            rw [he] at hd
            rw [hq] at hd
            simp at hd
          rw [addAfter_cons_ne hdq] at ih ⊢
          exact goodB_cons_of_space hd (ih h2)
        · exact goodB_cons_of_ne hcp (ih h2)

theorem good_id {p : Char} : ∀ {s : L}, goodB p s = true → addAfter p s = s := by
  intro s
  induction s with
  | nil => intro h; rfl
  | cons c cs ih =>
    intro h
    cases cs with
    | nil =>
      have : c ≠ p := by simpa [goodB] using h
      simp [addAfter, this]
    | cons d r =>
      have h1 : (c != p || pyIsSpace d) = true := by
        simp only [goodB, Bool.and_eq_true] at h
        exact h.1
      have h2 : goodB p (d :: r) = true := goodB_of_cons h
      by_cases hcp : c = p
      · have hd : pyIsSpace d = true := by
          rw [hcp] at h1
          simpa using h1
        rw [hcp, addAfter_cons_self_space hd, ih h2]
      · rw [addAfter_cons_ne hcp, ih h2]

/-- C6 (amended): each of the three passes inserts exactly one space after
each occurrence of its character that is not already followed by a
whitespace character — *including an occurrence at the very end of the
string, which also receives a space* (the negative lookahead succeeds at end
of string).  Consequently every `)`, `,`, `:` in the output is followed by
whitespace, and a text in which that is already the case passes through
unchanged. -/
theorem claim_C6 (s : L) :
    (goodB ')' (add_spacing_after_punctuation s) = true ∧
     goodB ',' (add_spacing_after_punctuation s) = true ∧
     goodB ':' (add_spacing_after_punctuation s) = true) ∧
    ((goodB ')' s = true ∧ goodB ',' s = true ∧ goodB ':' s = true) →
      add_spacing_after_punctuation s = s) := by
  by_cases hs : s = []
  · subst hs
    exact ⟨⟨rfl, rfl, rfl⟩, fun _ => rfl⟩
  · unfold add_spacing_after_punctuation
    rw [if_neg hs]
    constructor
    · refine ⟨?_, ?_, ?_⟩
      · exact good_addAfter_other (by decide) (by decide) (by decide) _
          (good_addAfter_other (by decide) (by decide) (by decide) _
            (good_addAfter_self ')' (by decide) s))
      · exact good_addAfter_other (by decide) (by decide) (by decide) _
          (good_addAfter_self ',' (by decide) _)
      · exact good_addAfter_self ':' (by decide) _
    · rintro ⟨h1, h2, h3⟩
      rw [good_id h1, good_id h2, good_id h3]

theorem claim_C6_wit :
    (goodB ')' (add_spacing_after_punctuation (lc "x, y")) = true ∧
     goodB ',' (add_spacing_after_punctuation (lc "x, y")) = true ∧
     goodB ':' (add_spacing_after_punctuation (lc "x, y")) = true) ∧
    add_spacing_after_punctuation (lc "x, y") = lc "x, y" :=
  ⟨(claim_C6 (lc "x, y")).1, (claim_C6 (lc "x, y")).2 ⟨by decide, by decide, by decide⟩⟩

/-- C6 counterexample: a `)` standing at end of string is, per the claim,
supposed to receive no space, but the code's lookahead succeeds at end of
string and a space is appended: `")"` becomes `") "`. -/
theorem claim_C6_cex :
    add_spacing_after_punctuation (lc ")") = lc ") " ∧ lc ") " ≠ lc ")" := by
  exact ⟨by decide, by decide⟩

/-! #### C9: maximal Japanese runs -/

theorem takeWhile_mem_pred {p : Char → Bool} {l : L} {x : Char}
    (h : x ∈ l.takeWhile p) : p x = true := by
  induction l with
  | nil => simp at h
  | cons c cs ih =>
    rw [List.takeWhile_cons] at h
    by_cases hc : p c
    · rw [if_pos hc] at h
      rcases List.mem_cons.mp h with rfl | h2
      · exact hc
      · exact ih h2
    · rw [if_neg hc] at h
      simp at h

theorem dropWhile_head_false {p : Char → Bool} {l : L} {y : Char}
    (h : (l.dropWhile p).head? = some y) : p y = false := by
  have := List.head?_dropWhile_not p l
  rw [h] at this
  exact this

theorem takeWhile_all_eq {p : Char → Bool} {l : L}
    (h : ∀ x ∈ l, p x = true) : l.takeWhile p = l := by
  induction l with
  | nil => rfl
  | cons c cs ih =>
    rw [List.takeWhile_cons, if_pos (h c (by simp))]
    rw [ih (fun x hx => h x (by simp [hx]))]

theorem takeWhile_append_stop {p : Char → Bool} {u v : L}
    (hu : ∀ x ∈ u, p x = true) (hv : ∀ y, v.head? = some y → p y = false) :
    (u ++ v).takeWhile p = u ∧ (u ++ v).dropWhile p = v := by
  induction u with
  | nil =>
    simp only [List.nil_append]
    cases v with
    | nil => exact ⟨rfl, rfl⟩
    | cons y ys =>
      have hy := hv y rfl
      rw [List.takeWhile_cons, List.dropWhile_cons]
      rw [if_neg (by simp [hy]), if_neg (by simp [hy])]
      exact ⟨rfl, rfl⟩
  | cons c cs ih =>
    have hc : p c = true := hu c (by simp)
    obtain ⟨h1, h2⟩ := ih (fun x hx => hu x (by simp [hx]))
    rw [List.cons_append, List.takeWhile_cons, List.dropWhile_cons]
    rw [if_pos hc, if_pos hc]
    exact ⟨by rw [h1], h2⟩

theorem dropWhile_append_ex {p : Char → Bool} {u v : L}
    (h : ∃ x ∈ u, p x = false) :
    (u ++ v).dropWhile p = u.dropWhile p ++ v := by
  induction u with
  | nil => simp at h
  | cons c cs ih =>
    rw [List.cons_append, List.dropWhile_cons, List.dropWhile_cons]
    by_cases hc : p c
    · rw [if_pos hc, if_pos hc]
      apply ih
      rcases h with ⟨x, hx, hpx⟩
      rcases List.mem_cons.mp hx with rfl | h2
      · rw [hc] at hpx; simp at hpx
      · exact ⟨x, h2, hpx⟩
    · rw [if_neg hc, if_neg hc]
      rfl

theorem getLast?_append_right {a b : L} (hb : b ≠ []) :
    (a ++ b).getLast? = b.getLast? := by
  rw [List.getLast?_append]
  cases hq : b.getLast? with
  | none => exact absurd (List.getLast?_eq_none_iff.mp hq) hb
  | some z => rfl

theorem getLast?_cons_right {c : Char} {l : L} (hl : l ≠ []) :
    (c :: l).getLast? = l.getLast? :=
  getLast?_append_right (a := [c]) hl

theorem jpRuns_sound :
    ∀ t s, t ∈ jpRuns s → MaximalRun t s := by
  have H : ∀ n s, s.length ≤ n → ∀ t, t ∈ jpRuns s → MaximalRun t s := by
    intro n
    induction n with
    | zero =>
      intro s hl t ht
      have : s = [] := by cases s with
        | nil => rfl
        | cons c cs => simp at hl
      subst this
      rw [jpRuns_nil] at ht
      simp at ht
    | succ n ih =>
      intro s hl t ht
      cases s with
      | nil => rw [jpRuns_nil] at ht; simp at ht
      | cons c cs =>
        rw [jpRuns_cons] at ht
        by_cases hc : isJP c
        · rw [if_pos hc] at ht
          rcases List.mem_cons.mp ht with rfl | ht2
          · refine ⟨by simp, ?_, [], cs.dropWhile isJP, ?_, ?_, ?_⟩
            · intro x hx
              rcases List.mem_cons.mp hx with rfl | h2
              · exact hc
              · exact takeWhile_mem_pred h2
            · simp [List.takeWhile_append_dropWhile]
            · intro x hx
              simp at hx
            · intro y hy
              exact dropWhile_head_false hy
          · have hlen : (cs.dropWhile isJP).length ≤ n := by
              have := (cs.dropWhile_sublist isJP).length_le
              simp at hl
              omega
            obtain ⟨tne, tJP, a', b', hs', ha', hb'⟩ := ih _ hlen t ht2
            have ha'ne : a' ≠ [] := by
              intro he
              subst he
              simp only [List.nil_append] at hs'
              cases t with
              | nil => exact tne rfl
              | cons tc tr =>
                have h1 : (cs.dropWhile isJP).head? = some tc := by
                  rw [hs']
                  rfl
                have h2 := dropWhile_head_false h1
                have h3 := tJP tc (by simp)
                rw [h3] at h2
                simp at h2
            refine ⟨tne, tJP, c :: cs.takeWhile isJP ++ a', b', ?_, ?_, hb'⟩
            · have : cs = cs.takeWhile isJP ++ cs.dropWhile isJP :=
                (List.takeWhile_append_dropWhile isJP cs).symm
              conv_lhs => rw [this]
              rw [hs']
              simp
            · intro x hx
              rw [getLast?_append_right ha'ne] at hx
              exact ha' x hx
        · rw [if_neg hc] at ht
          obtain ⟨tne, tJP, a', b', hs', ha', hb'⟩ :=
            ih cs (by simp at hl; omega) t ht
          refine ⟨tne, tJP, c :: a', b', by simp [hs'], ?_, hb'⟩
          intro x hx
          cases ha'e : a' with
          | nil =>
            subst ha'e
            simp at hx
            subst hx
            simpa using hc
          | cons z zs =>
            rw [ha'e] at hx ha'
            have : (c :: z :: zs).getLast? = (z :: zs).getLast? := by
              exact getLast?_append_right (a := [c]) (by simp)
            rw [this] at hx
            exact ha' x hx
  exact fun t s => H s.length s (le_refl _) t

theorem jpRuns_complete :
    ∀ t s, MaximalRun t s → t ∈ jpRuns s := by
  have H : ∀ n s, s.length ≤ n → ∀ t, MaximalRun t s → t ∈ jpRuns s := by
    intro n
    induction n with
    | zero =>
      intro s hl t ht
      obtain ⟨tne, tJP, a, b, hs, ha, hb⟩ := ht
      have : s = [] := by cases s with
        | nil => rfl
        | cons c cs => simp at hl
      subst this
      rcases List.append_eq_nil.mp hs.symm with ⟨h1, -⟩
      exact absurd (List.append_eq_nil.mp h1).2 tne
    | succ n ih =>
      intro s hl t ht
      obtain ⟨tne, tJP, a, b, hs, ha, hb⟩ := ht
      cases s with
      | nil =>
        rcases List.append_eq_nil.mp hs.symm with ⟨h1, -⟩
        exact absurd (List.append_eq_nil.mp h1).2 tne
      | cons c cs =>
        cases a with
        | nil =>
          cases t with
          | nil => exact absurd rfl tne
          | cons tc tr =>
            simp only [List.nil_append, List.cons_append] at hs
            injection hs with h1 h2
            subst h1
            subst h2
            have hcjp : isJP c = true := tJP c (by simp)
            rw [jpRuns_cons, if_pos hcjp]
            have htw : (tr ++ b).takeWhile isJP = tr :=
              (takeWhile_append_stop (fun x hx => tJP x (by simp [hx])) hb).1
            rw [htw]
            simp
        | cons x a' =>
          simp only [List.cons_append] at hs
          injection hs with h1 h2
          subst h1
          subst h2
          by_cases hx : isJP c
          · have ha'ne : a' ≠ [] := by
              intro he
              subst he
              have := ha c rfl
              rw [hx] at this
              simp at this
            obtain ⟨z, hz⟩ : ∃ z, a'.getLast? = some z := by
              cases hq : a'.getLast? with
              | none => exact absurd (List.getLast?_eq_none_iff.mp hq) ha'ne
              | some z => exact ⟨z, rfl⟩
            have hzjp : isJP z = false := by
              apply ha
              rw [getLast?_cons_right ha'ne]
              exact hz
            have hzmem : z ∈ a' := List.mem_of_getLast?_eq_some hz
            rw [jpRuns_cons, if_pos hx]
            have hsplit : (a' ++ t ++ b).dropWhile isJP = a'.dropWhile isJP ++ (t ++ b) := by
              have h0 := dropWhile_append_ex (v := t ++ b) ⟨z, hzmem, hzjp⟩
              rw [List.append_assoc]
              exact h0
            have hdne : a'.dropWhile isJP ≠ [] := by
              intro he
              have hall : ∀ y ∈ a', isJP y = true := by
                intro y hy
                by_cases hyy : isJP y
                · exact hyy
                · exfalso
                  have hsub : a'.dropWhile isJP = [] ↔ ∀ y ∈ a', isJP y := by
                    exact List.dropWhile_eq_nil_iff
                  rw [hsub] at he
                  exact hyy (he y hy)
              rw [hall z hzmem] at hzjp
              simp at hzjp
            have hdlast : (a'.dropWhile isJP).getLast? = a'.getLast? := by
              obtain ⟨w, hw⟩ := a'.dropWhile_suffix isJP
              conv_rhs => rw [← hw]
              rw [getLast?_append_right hdne]
            apply List.mem_cons_of_mem
            apply ih ((a' ++ t ++ b).dropWhile isJP)
            · have := ((a' ++ t ++ b).dropWhile_sublist isJP).length_le
              simp only [List.length_cons] at hl
              omega
            · refine ⟨tne, tJP, a'.dropWhile isJP, b, by rw [hsplit, List.append_assoc], ?_, hb⟩
              intro y hy
              rw [hdlast, hz] at hy
              injection hy with hy'
              subst hy'
              exact hzjp
          · rw [jpRuns_cons, if_neg hx]
            apply ih (a' ++ t ++ b) (by simp at hl ⊢; omega)
            refine ⟨tne, tJP, a', b, rfl, ?_, hb⟩
            intro y hy
            cases ha'e : a' with
            | nil =>
              subst ha'e
              simp at hy
            | cons w ws =>
              apply ha
              rw [ha'e] at hy ⊢
              rw [getLast?_cons_right (by simp)]
              exact hy
  exact fun t s => H s.length s (le_refl _) t

/-- C9 (confirmed): membership in the result of `extract_japanese_terms` is
exactly: being a maximal run of Hiragana/Katakana/Kanji characters of the
text, longer than one character, not already a key of the dictionary
snapshot, and not consisting purely of the numeric/unit characters
`0-9.,：:cm`.  The result is a set handed back to the caller; the
translation functions in this file never consult it. -/
theorem claim_C9 (translations : List Entry) (text t : L) :
    t ∈ extract_japanese_terms translations text ↔
      (MaximalRun t text ∧ 1 < t.length ∧
       t ∉ translations.map Prod.fst ∧
       ¬ (t ≠ [] ∧ ∀ c ∈ t, isNumUnitChar c = true)) := by
  unfold extract_japanese_terms
  rw [List.mem_filter, List.mem_dedup]
  constructor
  · rintro ⟨hmem, hpred⟩
    have hmax := jpRuns_sound t text hmem
    simp only [Bool.and_eq_true, decide_eq_true_eq, Bool.not_eq_true] at hpred
    obtain ⟨⟨hnot, hlen⟩, hnum⟩ := hpred
    refine ⟨hmax, hlen, hnot, ?_⟩
    intro hcon
    have : isNumUnitOnly t = true := by
      simp only [isNumUnitOnly, Bool.and_eq_true, decide_eq_true_eq, List.all_eq_true]
      exact hcon
    rw [this] at hnum
    simp at hnum
  · rintro ⟨hmax, hlen, hnot, hnum⟩
    refine ⟨jpRuns_complete t text hmax, ?_⟩
    simp only [Bool.and_eq_true, decide_eq_true_eq, Bool.not_eq_true]
    refine ⟨⟨hnot, hlen⟩, ?_⟩
    have hfalse : isNumUnitOnly t = false := by
      unfold isNumUnitOnly
      cases hall : t.all isNumUnitChar
      · simp
      · exfalso
        exact hnum ⟨hmax.1, by simpa [List.all_eq_true] using hall⟩
    rw [hfalse]
    rfl

/-! #### C4: digit runs survive the pipeline -/

theorem occ_append_left {r u v : L} (h : Occ r u) : Occ r (u ++ v) := by
  obtain ⟨a, b, rfl⟩ := h
  exact ⟨a, b ++ v, by simp⟩

theorem occ_append_right {r u v : L} (h : Occ r v) : Occ r (u ++ v) := by
  obtain ⟨a, b, rfl⟩ := h
  exact ⟨u ++ a, b, by simp⟩

theorem occ_ne_nil {r s : L} (h : Occ r s) (hr : r ≠ []) : s ≠ [] := by
  obtain ⟨a, b, rfl⟩ := h
  intro he
  rcases List.append_eq_nil.mp he with ⟨h1, -⟩
  exact hr (List.append_eq_nil.mp h1).2

theorem preSplit : ∀ (u : L) (v r : L), (∃ t, r ++ t = u ++ v) →
    (∃ t, r ++ t = u) ∨ (∃ r2, r = u ++ r2 ∧ ∃ b, r2 ++ b = v) := by
  intro u
  induction u with
  | nil =>
    intro v r ⟨t, ht⟩
    exact Or.inr ⟨r, rfl, t, by simpa using ht⟩
  | cons x u' ih =>
    intro v r ⟨t, ht⟩
    cases r with
    | nil => exact Or.inl ⟨x :: u', rfl⟩
    | cons y r' =>
      rw [List.cons_append, List.cons_append] at ht
      injection ht with h1 h2
      subst h1
      rcases ih v r' ⟨t, h2⟩ with ⟨t', ht'⟩ | ⟨r2, hr2, b, hb⟩
      · exact Or.inl ⟨t', by rw [List.cons_append, ht']⟩
      · exact Or.inr ⟨r2, by rw [List.cons_append, hr2], b, hb⟩

theorem occSplit {r : L} : ∀ {u v : L}, Occ r (u ++ v) →
    Occ r u ∨ Occ r v ∨
    ∃ r1 r2, r = r1 ++ r2 ∧ r1 ≠ [] ∧ r2 ≠ [] ∧
      (∃ a, a ++ r1 = u) ∧ (∃ b, r2 ++ b = v) := by
  intro u
  induction u with
  | nil =>
    intro v h
    exact Or.inr (Or.inl (by simpa using h))
  | cons x u' ih =>
    intro v h
    rw [List.cons_append] at h
    rcases occ_cons_iff.mp h with ⟨t, ht⟩ | h2
    · rcases preSplit (x :: u') v r ⟨t, ht⟩ with ⟨t', ht'⟩ | ⟨r2, hr2, b, hb⟩
      · exact Or.inl ⟨[], t', by simpa using ht'.symm⟩
      · cases hr2e : r2 with
        | nil =>
          subst hr2e
          rw [List.append_nil] at hr2
          exact Or.inl ⟨[], [], by simp [hr2]⟩
        | cons rc rr =>
          refine Or.inr (Or.inr ⟨x :: u', r2, by rw [hr2], by simp, by simp [hr2e], ⟨[], rfl⟩, b, hb⟩)
    · rcases ih h2 with h3 | h3 | ⟨r1, r2, he, h1ne, h2ne, ⟨a, ha⟩, hb⟩
      · exact Or.inl (occ_mono_cons h3)
      · exact Or.inr (Or.inl h3)
      · exact Or.inr (Or.inr ⟨r1, r2, he, h1ne, h2ne, ⟨x :: a, by rw [List.cons_append, ha]⟩, hb⟩)

theorem occAvoid {P : Char → Bool} {r u v : L}
    (hu : ∀ c ∈ u, P c = false) (hr : ∀ c ∈ r, P c = true) (hrne : r ≠ [])
    (h : Occ r (u ++ v)) : Occ r v := by
  rcases occSplit h with h1 | h1 | ⟨r1, r2, he, h1ne, h2ne, ⟨a, ha⟩, hb⟩
  · exfalso
    obtain ⟨x, b, hx⟩ := h1
    cases r with
    | nil => exact hrne rfl
    | cons rc rr =>
      have hmem : rc ∈ u := by
        rw [hx]
        simp
      have := hu rc hmem
      rw [hr rc (by simp)] at this
      simp at this
  · exact h1
  · exfalso
    cases r1 with
    | nil => exact h1ne rfl
    | cons rc rr =>
      have hmem : rc ∈ u := by
        rw [← ha]
        simp
      have h4 : rc ∈ r := by
        rw [he]
        simp
      have := hu rc hmem
      rw [hr rc h4] at this
      simp at this

theorem prePreserve_replaceAll {P : Char → Bool} {src tgt : L}
    (hne : src ≠ []) (hsrc : ∀ c ∈ src, P c = false) :
    ∀ s r, (∀ c ∈ r, P c = true) → (∃ t, r ++ t = s) →
      ∃ t', r ++ t' = replaceAll src tgt s := by
  have H : ∀ n s, s.length ≤ n → ∀ r, (∀ c ∈ r, P c = true) → (∃ t, r ++ t = s) →
      ∃ t', r ++ t' = replaceAll src tgt s := by
    intro n
    induction n with
    | zero =>
      intro s hl r hr ⟨t, ht⟩
      have hs : s = [] := by cases s with
        | nil => rfl
        | cons c cs => simp at hl
      subst hs
      rcases List.append_eq_nil.mp ht with ⟨rfl, -⟩
      exact ⟨replaceAll src tgt [], rfl⟩
    | succ n ih =>
      intro s hl r hr ⟨t, ht⟩
      cases r with
      | nil => exact ⟨replaceAll src tgt s, rfl⟩
      | cons rc rr =>
        cases s with
        | nil => simp at ht
        | cons c cs =>
          rw [List.cons_append] at ht
          injection ht with h1 h2
          subst h1
          have hpre : src.isPrefixOf (rc :: cs) = false := by
            cases hq : src.isPrefixOf (rc :: cs) with
            | false => rfl
            | true =>
              exfalso
              obtain ⟨q, hqq⟩ := isPrefixOf_iff_ex.mp hq
              cases src with
              | nil => exact hne rfl
              | cons sc ss =>
                rw [List.cons_append] at hqq
                injection hqq with hq1 hq2
                have := hsrc sc (by simp)
                rw [hq1, hr rc (by simp)] at this
                simp at this
          rw [replaceAll_cons, if_neg hne, if_neg (by simp [hpre])]
          obtain ⟨t', ht'⟩ := ih cs (by simp at hl; omega) rr
            (fun c hc => hr c (by simp [hc])) ⟨t, h2⟩
          exact ⟨t', by rw [List.cons_append, ht']⟩
  exact fun s => H s.length s (le_refl _)

theorem occPreserve_replaceAll {P : Char → Bool} {src tgt : L}
    (hne : src ≠ []) (hsrc : ∀ c ∈ src, P c = false)
    {r : L} (hr : ∀ c ∈ r, P c = true) (hrne : r ≠ []) :
    ∀ s, Occ r s → Occ r (replaceAll src tgt s) := by
  have H : ∀ n s, s.length ≤ n → Occ r s → Occ r (replaceAll src tgt s) := by
    intro n
    induction n with
    | zero =>
      intro s hl h
      have hs : s = [] := by cases s with
        | nil => rfl
        | cons c cs => simp at hl
      subst hs
      exact absurd rfl (occ_ne_nil h hrne)
    | succ n ih =>
      intro s hl h
      cases s with
      | nil => exact absurd rfl (occ_ne_nil h hrne)
      | cons c cs =>
        rw [replaceAll_cons, if_neg hne]
        by_cases hpre : src.isPrefixOf (c :: cs)
        · rw [if_pos hpre]
          have hdec := pre_of_isPrefixOf hpre
          have hocc2 : Occ r ((c :: cs).drop src.length) := by
            apply occAvoid hsrc hr hrne
            rw [hdec]
            exact h
          have hs2 : 0 < src.length := by
            cases src with
            | nil => exact absurd rfl hne
            | cons a as => simp
          apply occ_append_right
          apply ih
          · simp only [List.length_drop, List.length_cons]
            simp only [List.length_cons] at hl
            omega
          · exact hocc2
        · rw [if_neg hpre]
          rcases occ_cons_iff.mp h with ⟨t, ht⟩ | h2
          · cases r with
            | nil => exact absurd rfl hrne
            | cons rc rr =>
              rw [List.cons_append] at ht
              injection ht with h1 h2'
              subst h1
              obtain ⟨t', ht'⟩ := @prePreserve_replaceAll P src tgt hne hsrc cs rr
                (fun x hx => hr x (by simp [hx])) ⟨t, h2'⟩
              exact ⟨[], t', by simp [ht'.symm]⟩
          · exact occ_mono_cons (ih cs (by simp at hl; omega) h2)
  exact fun s => H s.length s (le_refl _)

theorem occPreserve_applyEntries {P : Char → Bool} {entries : List Entry}
    (hE : ∀ p ∈ entries, p.1 ≠ [] ∧ ((∀ c ∈ p.1, P c = false) ∨ p.1 = p.2))
    {r : L} (hr : ∀ c ∈ r, P c = true) (hrne : r ≠ []) :
    ∀ s, Occ r s → Occ r (applyEntries entries s) := by
  induction entries with
  | nil => intro s h; exact h
  | cons p ps ih =>
    intro s h
    rw [applyEntries_cons]
    apply ih (fun q hq => hE q (by simp [hq]))
    obtain ⟨hne, hdig | hid⟩ := hE p (by simp)
    · exact occPreserve_replaceAll hne hdig hr hrne s h
    · rw [hid, replaceAll_self]
      exact h

theorem occPreserve_convT {P : Char → Bool} {tbl : List (Char × L)}
    (htbl : ∀ p ∈ tbl, P p.1 = false)
    {r : L} (hr : ∀ c ∈ r, P c = true) (hrne : r ≠ []) :
    ∀ s, Occ r s → Occ r (convT tbl s) := by
  induction tbl with
  | nil => intro s h; exact h
  | cons p ps ih =>
    intro s h
    show Occ r (convT ps (replaceAll [p.1] p.2 s))
    apply ih (fun q hq => htbl q (by simp [hq]))
    apply occPreserve_replaceAll (by simp) ?_ hr hrne s h
    intro c hc
    rcases List.mem_singleton.mp hc with rfl
    exact htbl p (by simp)

theorem prePreserve_addAfter {P : Char → Bool} {p : Char} (hp : P p = false) :
    ∀ s r, (∀ c ∈ r, P c = true) → (∃ t, r ++ t = s) →
      ∃ t', r ++ t' = addAfter p s := by
  intro s
  induction s with
  | nil =>
    intro r hr ⟨t, ht⟩
    rcases List.append_eq_nil.mp ht with ⟨rfl, -⟩
    exact ⟨addAfter p [], rfl⟩
  | cons c cs ih =>
    intro r hr ⟨t, ht⟩
    cases r with
    | nil => exact ⟨addAfter p (c :: cs), rfl⟩
    | cons rc rr =>
      rw [List.cons_append] at ht
      injection ht with h1 h2
      subst h1
      have hcp : rc ≠ p := by
        intro he
        have := hr rc (by simp)
        rw [he, hp] at this
        simp at this
      rw [addAfter_cons_ne hcp]
      obtain ⟨t', ht'⟩ := ih rr (fun x hx => hr x (by simp [hx])) ⟨t, h2⟩
      exact ⟨t', by rw [List.cons_append, ht']⟩

theorem occ_singleton_false {P : Char → Bool} {r : L} {x : Char}
    (hr : ∀ c ∈ r, P c = true) (hrne : r ≠ []) (hx : P x = false) :
    ¬ Occ r [x] := by
  intro h
  obtain ⟨a, b, hab⟩ := h
  cases r with
  | nil => exact hrne rfl
  | cons rc rr =>
    have hmem : rc ∈ ([x] : L) := by
      rw [hab]
      simp
    rcases List.mem_singleton.mp hmem with rfl
    have := hr rc (by simp)
    rw [hx] at this
    simp at this

theorem occPreserve_addAfter {P : Char → Bool} {p : Char} (hp : P p = false)
    {r : L} (hr : ∀ c ∈ r, P c = true) (hrne : r ≠ []) :
    ∀ s, Occ r s → Occ r (addAfter p s) := by
  intro s
  induction s with
  | nil => intro h; exact absurd rfl (occ_ne_nil h hrne)
  | cons c cs ih =>
    intro h
    by_cases hc : c = p
    · subst hc
      have hnotpre : ∀ t : L, ¬ (r ++ t = c :: cs) → True := fun _ _ => trivial
      have hocc2 : Occ r cs := by
        rcases occ_cons_iff.mp h with ⟨t, ht⟩ | h2
        · exfalso
          cases r with
          | nil => exact hrne rfl
          | cons rc rr =>
            rw [List.cons_append] at ht
            injection ht with h1 h2'
            have := hr rc (by simp)
            rw [h1, hp] at this
            simp at this
        · exact h2
      cases cs with
      | nil => exact absurd rfl (occ_ne_nil hocc2 hrne)
      | cons d rest =>
        by_cases hd : pyIsSpace d
        · rw [addAfter_cons_self_space hd]
          exact occ_mono_cons (ih hocc2)
        · rw [addAfter_cons_self_nonspace (by simpa using hd)]
          exact occ_mono_cons (occ_mono_cons (ih hocc2))
    · rw [addAfter_cons_ne hc]
      rcases occ_cons_iff.mp h with ⟨t, ht⟩ | h2
      · cases r with
        | nil => exact absurd rfl hrne
        | cons rc rr =>
          rw [List.cons_append] at ht
          injection ht with h1 h2'
          subst h1
          obtain ⟨t', ht'⟩ := prePreserve_addAfter hp cs rr
            (fun x hx => hr x (by simp [hx])) ⟨t, h2'⟩
          exact ⟨[], t', by simp [ht'.symm]⟩
      · exact occ_mono_cons (ih h2)

theorem dropLen_takeWhile {p : Char → Bool} : ∀ l : L,
    l.drop (l.takeWhile p).length = l.dropWhile p := by
  intro l
  induction l with
  | nil => rfl
  | cons c cs ih =>
    rw [List.takeWhile_cons, List.dropWhile_cons]
    by_cases hc : p c
    · rw [if_pos hc, if_pos hc]
      simpa using ih
    · rw [if_neg hc, if_neg hc]
      simp

theorem splitMatch1_some {s lm dm rest : L} (h : splitMatch1 s = some (lm, dm, rest)) :
    s = lm ++ dm ++ '%' :: rest ∧ lm ≠ [] ∧ dm ≠ [] ∧
    (∀ c ∈ lm, isAsciiLetter c = true) ∧ (∀ c ∈ dm, isPyDigit c = true) := by
  unfold splitMatch1 at h
  split at h
  · rename_i hcond
    obtain ⟨h1, h2, h3⟩ := hcond
    injection h with h'
    have e1 : lm = s.takeWhile isAsciiLetter := by
      have := congrArg Prod.fst h'
      simpa using this.symm
    have e2 : dm = (s.dropWhile isAsciiLetter).takeWhile isPyDigit := by
      have := congrArg Prod.fst (congrArg Prod.snd h')
      simpa using this.symm
    have e3 : rest = ((s.dropWhile isAsciiLetter).drop
        ((s.dropWhile isAsciiLetter).takeWhile isPyDigit).length).tail := by
      have := congrArg Prod.snd (congrArg Prod.snd h')
      simpa using this.symm
    have hd : (s.dropWhile isAsciiLetter).drop
        ((s.dropWhile isAsciiLetter).takeWhile isPyDigit).length
        = (s.dropWhile isAsciiLetter).dropWhile isPyDigit :=
      dropLen_takeWhile _
    have hr2 : (s.dropWhile isAsciiLetter).dropWhile isPyDigit = '%' :: rest := by
      rw [hd] at h3 e3
      cases hq : (s.dropWhile isAsciiLetter).dropWhile isPyDigit with
      | nil =>
        rw [hq] at h3
        simp at h3
      | cons q qs =>
        rw [hq] at h3 e3
        simp only [List.head?_cons, Option.some.injEq] at h3
        subst h3
        rw [e3]
        rfl
    refine ⟨?_, e1 ▸ h1, e2 ▸ h2, ?_, ?_⟩
    · have hs1 : s = lm ++ s.dropWhile isAsciiLetter := by
        rw [e1]
        exact (List.takeWhile_append_dropWhile _ _).symm
      have hs2 : s.dropWhile isAsciiLetter = dm ++ '%' :: rest := by
        conv_lhs => rw [← List.takeWhile_append_dropWhile (p := isPyDigit)
          (l := s.dropWhile isAsciiLetter)]
        rw [hr2, ← e2]
      rw [hs1, hs2]
      simp
    · intro c hc
      exact takeWhile_mem_pred (e1 ▸ hc)
    · intro c hc
      exact takeWhile_mem_pred (e2 ▸ hc)
  · exact absurd h (by simp)

theorem splitMatch2_some {s lm dm rest : L} (h : splitMatch2 s = some (lm, dm, rest)) :
    s = lm ++ dm ++ rest ∧ lm ≠ [] ∧ dm ≠ [] ∧
    (∀ c ∈ lm, isAsciiLetter c = true) ∧ (∀ c ∈ dm, isPyDigit c = true) ∧
    (∀ y, rest.head? = some y → isPyDigit y = false) := by
  unfold splitMatch2 at h
  split at h
  · rename_i hcond
    obtain ⟨h1, h2⟩ := hcond
    injection h with h'
    have e1 : lm = s.takeWhile isAsciiLetter := by
      have := congrArg Prod.fst h'
      simpa using this.symm
    have e2 : dm = (s.dropWhile isAsciiLetter).takeWhile isPyDigit := by
      have := congrArg Prod.fst (congrArg Prod.snd h')
      simpa using this.symm
    have e3 : rest = (s.dropWhile isAsciiLetter).drop
        ((s.dropWhile isAsciiLetter).takeWhile isPyDigit).length := by
      have := congrArg Prod.snd (congrArg Prod.snd h')
      simpa using this.symm
    have hd : rest = (s.dropWhile isAsciiLetter).dropWhile isPyDigit := by
      rw [e3, dropLen_takeWhile]
    refine ⟨?_, e1 ▸ h1, e2 ▸ h2, ?_, ?_, ?_⟩
    · have hs1 : s = lm ++ s.dropWhile isAsciiLetter := by
        rw [e1]
        exact (List.takeWhile_append_dropWhile _ _).symm
      have hs2 : s.dropWhile isAsciiLetter = dm ++ rest := by
        conv_lhs => rw [← List.takeWhile_append_dropWhile (p := isPyDigit)
          (l := s.dropWhile isAsciiLetter)]
        rw [← hd, ← e2]
      rw [hs1, hs2]
      simp
    · intro c hc
      exact takeWhile_mem_pred (e1 ▸ hc)
    · intro c hc
      exact takeWhile_mem_pred (e2 ▸ hc)
    · intro y hy
      rw [hd] at hy
      exact dropWhile_head_false hy
  · exact absurd h (by simp)

theorem splitMatch1_none_head {c : Char} {cs : L} (hc : isAsciiLetter c = false) :
    splitMatch1 (c :: cs) = none := by
  unfold splitMatch1
  rw [if_neg]
  rintro ⟨h1, -, -⟩
  rw [List.takeWhile_cons, if_neg (by simp [hc])] at h1
  exact h1 rfl

theorem splitMatch2_none_head {c : Char} {cs : L} (hc : isAsciiLetter c = false) :
    splitMatch2 (c :: cs) = none := by
  unfold splitMatch2
  rw [if_neg]
  rintro ⟨h1, -⟩
  rw [List.takeWhile_cons, if_neg (by simp [hc])] at h1
  exact h1 rfl

theorem prePreserve_sub1 {P : Char → Bool}
    (hL : ∀ c, isAsciiLetter c = true → P c = false) :
    ∀ s r, (∀ c ∈ r, P c = true) → (∃ t, r ++ t = s) →
      ∃ t', r ++ t' = sub1 s := by
  intro s
  induction s with
  | nil =>
    intro r hr ⟨t, ht⟩
    rcases List.append_eq_nil.mp ht with ⟨rfl, -⟩
    exact ⟨sub1 [], rfl⟩
  | cons c cs ih =>
    intro r hr ⟨t, ht⟩
    cases r with
    | nil => exact ⟨sub1 (c :: cs), rfl⟩
    | cons rc rr =>
      rw [List.cons_append] at ht
      injection ht with h1 h2
      subst h1
      have hcl : isAsciiLetter rc = false := by
        cases hq : isAsciiLetter rc with
        | false => rfl
        | true =>
          have := hL rc hq
          rw [hr rc (by simp)] at this
          simp at this
      rw [sub1_cons, splitMatch1_none_head hcl]
      obtain ⟨t', ht'⟩ := ih rr (fun x hx => hr x (by simp [hx])) ⟨t, h2⟩
      exact ⟨t', by rw [List.cons_append, ht']⟩

theorem prePreserve_sub2 {P : Char → Bool}
    (hL : ∀ c, isAsciiLetter c = true → P c = false) :
    ∀ s r, (∀ c ∈ r, P c = true) → (∃ t, r ++ t = s) →
      ∃ t', r ++ t' = sub2 s := by
  intro s
  induction s with
  | nil =>
    intro r hr ⟨t, ht⟩
    rcases List.append_eq_nil.mp ht with ⟨rfl, -⟩
    exact ⟨sub2 [], rfl⟩
  | cons c cs ih =>
    intro r hr ⟨t, ht⟩
    cases r with
    | nil => exact ⟨sub2 (c :: cs), rfl⟩
    | cons rc rr =>
      rw [List.cons_append] at ht
      injection ht with h1 h2
      subst h1
      have hcl : isAsciiLetter rc = false := by
        cases hq : isAsciiLetter rc with
        | false => rfl
        | true =>
          have := hL rc hq
          rw [hr rc (by simp)] at this
          simp at this
      rw [sub2_cons, splitMatch2_none_head hcl]
      obtain ⟨t', ht'⟩ := ih rr (fun x hx => hr x (by simp [hx])) ⟨t, h2⟩
      exact ⟨t', by rw [List.cons_append, ht']⟩

theorem occPreserve_sub1 {P : Char → Bool}
    (hL : ∀ c, isAsciiLetter c = true → P c = false) (hpct : P '%' = false)
    {r : L} (hr : ∀ c ∈ r, P c = true) (hrne : r ≠ []) :
    ∀ s, Occ r s → Occ r (sub1 s) := by
  have H : ∀ n s, s.length ≤ n → Occ r s → Occ r (sub1 s) := by
    intro n
    induction n with
    | zero =>
      intro s hl h
      have hs : s = [] := by cases s with
        | nil => rfl
        | cons c cs => simp at hl
      subst hs
      exact absurd rfl (occ_ne_nil h hrne)
    | succ n ih =>
      intro s hl h
      cases s with
      | nil => exact absurd rfl (occ_ne_nil h hrne)
      | cons c cs =>
        rw [sub1_cons]
        cases hm : splitMatch1 (c :: cs) with
        | some triple =>
          obtain ⟨lm, dm, rest⟩ := triple
          obtain ⟨hsplit, hlmne, hdmne, hlmL, hdmD⟩ := splitMatch1_some hm
          have hrestlen : rest.length ≤ n := by
            have := splitMatch1_rest_len hm
            simp only [List.length_cons] at this hl
            omega
          have hlmP : ∀ x ∈ lm, P x = false := fun x hx => hL x (hlmL x hx)
          have h2 : Occ r (dm ++ '%' :: rest) := by
            apply occAvoid hlmP hr hrne
            rw [← List.append_assoc, ← hsplit]
            exact h
          simp only []
          rcases occSplit h2 with h3 | h3 | ⟨r1, r2, he, h1ne, h2ne, ⟨a, ha⟩, b, hb⟩
          · apply occ_append_left
            apply occ_append_right
            exact occ_mono_cons h3
          · rcases occ_cons_iff.mp h3 with ⟨t, ht⟩ | h4
            · exfalso
              cases r with
              | nil => exact hrne rfl
              | cons rc rr =>
                rw [List.cons_append] at ht
                injection ht with hh1 hh2
                have := hr rc (by simp)
                rw [hh1, hpct] at this
                simp at this
            · apply occ_append_right
              exact occ_mono_cons (ih rest hrestlen h4)
          · exfalso
            cases r2 with
            | nil => exact h2ne rfl
            | cons q qs =>
              rw [List.cons_append] at hb
              injection hb with hb1 hb2
              have hqmem : q ∈ r := by
                rw [he]
                simp
              have := hr q hqmem
              rw [← hb1] at hpct
              rw [hpct] at this
              simp at this
        | none =>
          rcases occ_cons_iff.mp h with ⟨t, ht⟩ | h2
          · cases r with
            | nil => exact absurd rfl hrne
            | cons rc rr =>
              rw [List.cons_append] at ht
              injection ht with h1 h2'
              subst h1
              obtain ⟨t', ht'⟩ := prePreserve_sub1 hL cs rr
                (fun x hx => hr x (by simp [hx])) ⟨t, h2'⟩
              exact ⟨[], t', by simp [ht'.symm]⟩
          · exact occ_mono_cons (ih cs (by simp at hl; omega) h2)
  exact fun s => H s.length s (le_refl _)

theorem occPreserve_sub2 {P : Char → Bool}
    (hL : ∀ c, isAsciiLetter c = true → P c = false)
    (hD : ∀ c, P c = true → isPyDigit c = true)
    {r : L} (hr : ∀ c ∈ r, P c = true) (hrne : r ≠ []) :
    ∀ s, Occ r s → Occ r (sub2 s) := by
  have H : ∀ n s, s.length ≤ n → Occ r s → Occ r (sub2 s) := by
    intro n
    induction n with
    | zero =>
      intro s hl h
      have hs : s = [] := by cases s with
        | nil => rfl
        | cons c cs => simp at hl
      subst hs
      exact absurd rfl (occ_ne_nil h hrne)
    | succ n ih =>
      intro s hl h
      cases s with
      | nil => exact absurd rfl (occ_ne_nil h hrne)
      | cons c cs =>
        rw [sub2_cons]
        cases hm : splitMatch2 (c :: cs) with
        | some triple =>
          obtain ⟨lm, dm, rest⟩ := triple
          obtain ⟨hsplit, hlmne, hdmne, hlmL, hdmD, hrest⟩ := splitMatch2_some hm
          have hrestlen : rest.length ≤ n := by
            have := splitMatch2_rest_len hm
            simp only [List.length_cons] at this hl
            omega
          have hlmP : ∀ x ∈ lm, P x = false := fun x hx => hL x (hlmL x hx)
          have h2 : Occ r (dm ++ rest) := by
            apply occAvoid hlmP hr hrne
            rw [← List.append_assoc, ← hsplit]
            exact h
          simp only []
          rcases occSplit h2 with h3 | h3 | ⟨r1, r2, he, h1ne, h2ne, ⟨a, ha⟩, b, hb⟩
          · apply occ_append_left
            apply occ_append_right
            exact occ_mono_cons h3
          · apply occ_append_right
            exact ih rest hrestlen h3
          · exfalso
            cases r2 with
            | nil => exact h2ne rfl
            | cons q qs =>
              have hqhead : rest.head? = some q := by
                rw [← hb]
                rfl
              have hqmem : q ∈ r := by
                rw [he]
                simp
              have hq1 := hD q (hr q hqmem)
              rw [hrest q hqhead] at hq1
              simp at hq1
        | none =>
          rcases occ_cons_iff.mp h with ⟨t, ht⟩ | h2
          · cases r with
            | nil => exact absurd rfl hrne
            | cons rc rr =>
              rw [List.cons_append] at ht
              injection ht with h1 h2'
              subst h1
              obtain ⟨t', ht'⟩ := prePreserve_sub2 hL cs rr
                (fun x hx => hr x (by simp [hx])) ⟨t, h2'⟩
              exact ⟨[], t', by simp [ht'.symm]⟩
          · exact occ_mono_cons (ih cs (by simp at hl; omega) h2)
  exact fun s => H s.length s (le_refl _)

theorem preLine {r : L} (hnl : ∀ c ∈ r, c ≠ '\n') :
    ∀ s, (∃ t, r ++ t = s) →
      ∃ l0 ls, splitNL s = l0 :: ls ∧ ∃ t', r ++ t' = l0 := by
  induction r with
  | nil =>
    intro s _
    cases hsp : splitNL s with
    | nil => exact absurd hsp (splitNL_ne_nil s)
    | cons l0 ls => exact ⟨l0, ls, rfl, l0, rfl⟩
  | cons rc rr ih =>
    intro s ⟨t, ht⟩
    cases s with
    | nil => simp at ht
    | cons c cs =>
      rw [List.cons_append] at ht
      injection ht with h1 h2
      subst h1
      have hrc : ¬ rc = '\n' := hnl rc (by simp)
      obtain ⟨l0, ls, hsp, t', ht'⟩ := ih (fun x hx => hnl x (by simp [hx])) cs ⟨t, h2⟩
      refine ⟨rc :: l0, ls, ?_, t', by rw [List.cons_append, ht']⟩
      rw [splitNL_cons, if_neg hrc, hsp]

theorem occ_split_lines {r : L} (hnl : ∀ c ∈ r, c ≠ '\n') (hrne : r ≠ []) :
    ∀ s, Occ r s → ∃ l ∈ splitNL s, Occ r l := by
  intro s
  induction s with
  | nil => intro h; exact absurd rfl (occ_ne_nil h hrne)
  | cons c cs ih =>
    intro h
    by_cases hc : c = '\n'
    · subst hc
      have h2 : Occ r cs := by
        rcases occ_cons_iff.mp h with ⟨t, ht⟩ | h2
        · exfalso
          cases r with
          | nil => exact hrne rfl
          | cons rc rr =>
            rw [List.cons_append] at ht
            injection ht with h1 h2'
            exact hnl rc (by simp) h1
        · exact h2
      obtain ⟨l, hl, hoccl⟩ := ih h2
      refine ⟨l, ?_, hoccl⟩
      rw [splitNL_cons, if_pos rfl]
      simp [hl]
    · cases hsp : splitNL cs with
      | nil => exact absurd hsp (splitNL_ne_nil cs)
      | cons l0 ls =>
        have hres : splitNL (c :: cs) = (c :: l0) :: ls := by
          rw [splitNL_cons, if_neg hc, hsp]
        rcases occ_cons_iff.mp h with ⟨t, ht⟩ | h2
        · cases r with
          | nil => exact absurd rfl hrne
          | cons rc rr =>
            rw [List.cons_append] at ht
            injection ht with h1 h2'
            subst h1
            obtain ⟨l0', ls', hsp', t', ht'⟩ :=
              preLine (fun x hx => hnl x (by simp [hx])) cs ⟨t, h2'⟩
            rw [hsp] at hsp'
            injection hsp' with he1 he2
            subst he1
            refine ⟨rc :: l0, by rw [hres]; simp, ⟨[], t', ?_⟩⟩
            simp [ht'.symm]
        · obtain ⟨l, hl, hoccl⟩ := ih h2
          rw [hsp] at hl
          rcases List.mem_cons.mp hl with rfl | hl2
          · exact ⟨c :: l, by rw [hres]; simp, occ_mono_cons hoccl⟩
          · exact ⟨l, by rw [hres]; simp [hl2], hoccl⟩

theorem occ_joinNL_mem {r l : L} : ∀ {ls : List L}, l ∈ ls → Occ r l →
    Occ r (joinNL ls) := by
  intro ls
  induction ls with
  | nil => intro h; simp at h
  | cons x xs ih =>
    intro hl hocc
    cases xs with
    | nil =>
      rcases List.mem_singleton.mp hl with rfl
      simpa [joinNL] using hocc
    | cons y ys =>
      show Occ r (x ++ '\n' :: joinNL (y :: ys))
      rcases List.mem_cons.mp hl with rfl | h2
      · exact occ_append_left hocc
      · exact occ_append_right (occ_mono_cons (ih h2 hocc))

theorem letter_not_halfdigit : ∀ c, isAsciiLetter c = true → isHalfDigit c = false := by
  intro c h
  simp only [isAsciiLetter, Bool.or_eq_true, Bool.and_eq_true, decide_eq_true_eq] at h
  cases hq : isHalfDigit c with
  | false => rfl
  | true =>
    exfalso
    simp only [isHalfDigit, Bool.and_eq_true, decide_eq_true_eq] at hq
    rcases h with ⟨h1, -⟩ | ⟨h1, -⟩
    · exact absurd (le_trans h1 hq.2) (by decide)
    · exact absurd (le_trans h1 hq.2) (by decide)

theorem halfdigit_pydigit : ∀ c, isHalfDigit c = true → isPyDigit c = true := by
  intro c h
  simp only [isHalfDigit, Bool.and_eq_true] at h
  simp only [isPyDigit, Bool.or_eq_true, Bool.and_eq_true]
  exact Or.inl h

/-- C4 (confirmed): for any dictionary snapshot whose source terms are
nonempty and either contain no half-width digit or are mapped to themselves
(as `'100%'`, `'cm'`, `'mm'`, `'m'` are in the base dictionary), every
half-width digit run occurring in the input occurs contiguously and
unchanged in the output of `translate_text`: neither the substitution passes
nor the three normalization passes delete, reorder, or insert characters
inside it. -/
theorem claim_C4 (entries : List Entry) (text r : L)
    (hE : ∀ p ∈ entries, p.1 ≠ [] ∧
        ((∀ c ∈ p.1, isHalfDigit c = false) ∨ p.1 = p.2))
    (hrne : r ≠ []) (hr : ∀ c ∈ r, isHalfDigit c = true)
    (hocc : Occ r text) :
    Occ r (translate_text entries text) := by
  have hnl : ∀ c ∈ r, c ≠ '\n' := by
    intro c hc he
    have h := hr c hc
    rw [he] at h
    exact absurd h (by decide)
  have htne : text ≠ [] := occ_ne_nil hocc hrne
  simp only [translate_text, if_neg htne]
  obtain ⟨l, hl, hoccl⟩ := occ_split_lines hnl hrne text hocc
  have h2 : Occ r (if pyStrip l = [] then l
      else applyEntries (sortDescLen entries) l) := by
    by_cases hstrip : pyStrip l = []
    · rw [if_pos hstrip]
      exact hoccl
    · rw [if_neg hstrip]
      apply occPreserve_applyEntries (P := isHalfDigit) ?_ hr hrne l hoccl
      intro p hp
      exact hE p (mem_sortDescLen.mp hp)
  have h3 : Occ r (joinNL ((splitNL text).map (fun line =>
      if pyStrip line = [] then line
      else applyEntries (sortDescLen entries) line))) := by
    apply occ_joinNL_mem (List.mem_map_of_mem _ hl) h2
  have h4 : Occ r (convert_fullwidth_to_halfwidth (joinNL ((splitNL text).map
      (fun line => if pyStrip line = [] then line
        else applyEntries (sortDescLen entries) line)))) := by
    unfold convert_fullwidth_to_halfwidth
    split
    · exact h3
    · apply occPreserve_convT (P := isHalfDigit) ?_ hr hrne _ h3
      intro p hp
      have hk : 127 < p.1.toNat := by
        revert p
        decide
      cases hq : isHalfDigit p.1 with
      | false => rfl
      | true =>
        exfalso
        simp only [isHalfDigit, Bool.and_eq_true, decide_eq_true_eq] at hq
        have h9 : p.1 ≤ '9' := hq.2
        have : p.1.toNat ≤ 57 := h9
        omega
  have h5 : Occ r (add_spacing_after_punctuation (convert_fullwidth_to_halfwidth
      (joinNL ((splitNL text).map (fun line =>
        if pyStrip line = [] then line
        else applyEntries (sortDescLen entries) line))))) := by
    unfold add_spacing_after_punctuation
    split
    · exact h4
    · exact occPreserve_addAfter (P := isHalfDigit) (by decide) hr hrne _
        (occPreserve_addAfter (by decide) hr hrne _
          (occPreserve_addAfter (by decide) hr hrne _ h4))
  unfold add_spaces_after_materials
  split
  · exact h5
  · exact occPreserve_sub2 letter_not_halfdigit halfdigit_pydigit hr hrne _
      (occPreserve_sub1 letter_not_halfdigit (by decide) hr hrne _ h5)

theorem claim_C4_wit :
    ((∀ p ∈ baseTranslations, p.1 ≠ [] ∧
        ((∀ c ∈ p.1, isHalfDigit c = false) ∨ p.1 = p.2)) ∧
     lc "78" ≠ [] ∧ (∀ c ∈ lc "78", isHalfDigit c = true) ∧
     Occ (lc "78") (lc "股下78cm")) ∧
    Occ (lc "78") (translate_text baseTranslations (lc "股下78cm")) :=
  ⟨⟨by decide, by decide, by decide, by decide⟩,
   claim_C4 baseTranslations (lc "股下78cm") (lc "78")
     (by decide) (by decide) (by decide) (by decide)⟩

/-! #### C3: idempotence of the three-pass normalization -/

theorem replaceAll_single_id {k : Char} {v s : L} (h : k ∉ s) :
    replaceAll [k] v s = s := by
  rw [replaceAll_single]
  apply charMapAll_id
  intro c hc
  rw [if_neg]
  intro he
  exact h (he ▸ hc)

theorem mem_replaceAll_single {k : Char} {v s : L} {c : Char}
    (h : c ∈ replaceAll [k] v s) : c ∈ v ∨ (c ∈ s ∧ c ≠ k) := by
  rw [replaceAll_single] at h
  obtain ⟨d, hd, hc⟩ := mem_charMapAll.mp h
  by_cases hdk : d = k
  · rw [if_pos hdk] at hc
    exact Or.inl hc
  · rw [if_neg hdk] at hc
    rcases List.mem_singleton.mp hc with rfl
    exact Or.inr ⟨hd, hdk⟩

theorem convT_cons (p : Char × L) (ps : List (Char × L)) (s : L) :
    convT (p :: ps) s = convT ps (replaceAll [p.1] p.2 s) := rfl

theorem convT_id {tbl : List (Char × L)} {s : L}
    (h : ∀ p ∈ tbl, p.1 ∉ s) : convT tbl s = s := by
  induction tbl with
  | nil => rfl
  | cons p ps ih =>
    rw [convT_cons, replaceAll_single_id (h p (by simp))]
    exact ih (fun q hq => h q (by simp [hq]))

theorem convT_not_mem {tbl : List (Char × L)} {s : L} {x : Char}
    (hx : x ∉ s) (hv : ∀ q ∈ tbl, x ∉ q.2) : x ∉ convT tbl s := by
  induction tbl generalizing s with
  | nil => exact hx
  | cons p ps ih =>
    rw [convT_cons]
    apply ih ?_ (fun q hq => hv q (by simp [hq]))
    intro hmem
    rcases mem_replaceAll_single hmem with h1 | ⟨h1, -⟩
    · exact hv p (by simp) h1
    · exact hx h1

theorem convT_no_keys {tbl : List (Char × L)}
    (hsep : ∀ p ∈ tbl, ∀ c ∈ p.2, ∀ q ∈ tbl, c ≠ q.1) :
    ∀ s c, c ∈ convT tbl s → ∀ q ∈ tbl, c ≠ q.1 := by
  induction tbl with
  | nil =>
    intro s c hc q hq
    simp at hq
  | cons p ps ih =>
    intro s c hc q hq
    rw [convT_cons] at hc
    have hp1 : p.1 ∉ replaceAll [p.1] p.2 s := by
      intro hmem
      rcases mem_replaceAll_single hmem with h1 | ⟨-, h2⟩
      · exact hsep p (by simp) p.1 h1 p (by simp) rfl
      · exact h2 rfl
    rcases List.mem_cons.mp hq with rfl | hq2
    · intro he
      exact convT_not_mem hp1
        (fun q' hq' hcv => hsep q' (by simp [hq']) q.1 hcv q (by simp) rfl)
        (he ▸ hc)
    · exact ih (fun p' hp' c' hc' q' hq' =>
        hsep p' (by simp [hp']) c' hc' q' (by simp [hq'])) _ c hc q hq2

theorem fwVals_ascii : ∀ p ∈ fwTable, ∀ c ∈ p.2, c.toNat < 128 := by decide

theorem fwKeys_big : ∀ p ∈ fwTable, 127 < p.1.toNat := by decide

theorem fwSep : ∀ p ∈ fwTable, ∀ c ∈ p.2, ∀ q ∈ fwTable, c ≠ q.1 := by
  intro p hp c hc q hq he
  have h1 := fwVals_ascii p hp c hc
  have h2 := fwKeys_big q hq
  rw [he] at h1
  omega

/-- After the fullwidth pass no character of the text is a table key. -/
theorem conv_no_keys {s : L} :
    ∀ c ∈ convT fwTable s, ∀ q ∈ fwTable, c ≠ q.1 :=
  fun c hc => convT_no_keys fwSep s c hc

theorem conv_eq (s : L) : convert_fullwidth_to_halfwidth s = convT fwTable s := by
  unfold convert_fullwidth_to_halfwidth
  split
  · rename_i hs
    subst hs
    symm
    exact convT_id (by simp)
  · rfl

theorem spacing_eq (s : L) :
    add_spacing_after_punctuation s = addAfter ':' (addAfter ',' (addAfter ')' s)) := by
  unfold add_spacing_after_punctuation
  split
  · rename_i hs
    subst hs
    rfl
  · rfl

theorem materials_eq (s : L) : add_spaces_after_materials s = sub2 (sub1 s) := by
  unfold add_spaces_after_materials
  split
  · rename_i hs
    subst hs
    rfl
  · rfl

theorem mem_addAfter {p : Char} {s : L} {c : Char}
    (h : c ∈ addAfter p s) : c ∈ s ∨ c = ' ' := by
  induction s with
  | nil => simp [addAfter] at h
  | cons x xs ih =>
    cases xs with
    | nil =>
      by_cases hx : x = p
      · subst hx
        simp only [addAfter, if_pos rfl] at h
        rcases List.mem_cons.mp h with rfl | h2
        · exact Or.inl (by simp)
        · rcases List.mem_singleton.mp h2 with rfl
          exact Or.inr rfl
      · rw [addAfter_cons_ne hx] at h
        rcases List.mem_cons.mp h with rfl | h2
        · exact Or.inl (by simp)
        · simp [addAfter] at h2
    | cons d r =>
      by_cases hx : x = p
      · subst hx
        by_cases hd : pyIsSpace d
        · rw [addAfter_cons_self_space hd] at h
          rcases List.mem_cons.mp h with rfl | h2
          · exact Or.inl (by simp)
          · rcases ih h2 with h3 | h3
            · exact Or.inl (by simp [h3])
            · exact Or.inr h3
        · rw [addAfter_cons_self_nonspace (by simpa using hd)] at h
          rcases List.mem_cons.mp h with rfl | h2
          · exact Or.inl (by simp)
          · rcases List.mem_cons.mp h2 with rfl | h3
            · exact Or.inr rfl
            · rcases ih h3 with h4 | h4
              · exact Or.inl (by simp [h4])
              · exact Or.inr h4
      · rw [addAfter_cons_ne hx] at h
        rcases List.mem_cons.mp h with rfl | h2
        · exact Or.inl (by simp)
        · rcases ih h2 with h3 | h3
          · exact Or.inl (by simp [h3])
          · exact Or.inr h3

theorem mem_sub1 {s : L} {c : Char} (h : c ∈ sub1 s) : c ∈ s ∨ c = ' ' := by
  revert h
  have H : ∀ n s, s.length ≤ n → c ∈ sub1 s → c ∈ s ∨ c = ' ' := by
    intro n
    induction n with
    | zero =>
      intro s hl h
      have hs : s = [] := by cases s with
        | nil => rfl
        | cons x xs => simp at hl
      subst hs
      simp [sub1_nil] at h
    | succ n ih =>
      intro s hl h
      cases s with
      | nil => simp [sub1_nil] at h
      | cons x xs =>
        rw [sub1_cons] at h
        cases hm : splitMatch1 (x :: xs) with
        | some triple =>
          obtain ⟨lm, dm, rest⟩ := triple
          rw [hm] at h
          obtain ⟨hsplit, -, -, -, -⟩ := splitMatch1_some hm
          have hrest : rest.length ≤ n := by
            have := splitMatch1_rest_len hm
            simp only [List.length_cons] at this hl
            omega
          simp only [] at h
          rcases List.mem_append.mp h with h1 | h1
          · rcases List.mem_append.mp h1 with h2 | h2
            · exact Or.inl (by rw [hsplit]; simp [h2])
            · rcases List.mem_cons.mp h2 with rfl | h3
              · exact Or.inr rfl
              · exact Or.inl (by rw [hsplit]; simp [h3])
          · rcases List.mem_cons.mp h1 with rfl | h3
            · exact Or.inl (by rw [hsplit]; simp)
            · rcases ih rest hrest h3 with h4 | h4
              · exact Or.inl (by rw [hsplit]; simp [h4])
              · exact Or.inr h4
        | none =>
          rw [hm] at h
          simp only [] at h
          rcases List.mem_cons.mp h with rfl | h2
          · exact Or.inl (by simp)
          · rcases ih xs (by simp at hl; omega) h2 with h3 | h3
            · exact Or.inl (by simp [h3])
            · exact Or.inr h3
  exact H s.length s (le_refl _)

theorem mem_sub2 {s : L} {c : Char} (h : c ∈ sub2 s) : c ∈ s ∨ c = ' ' := by
  revert h
  have H : ∀ n s, s.length ≤ n → c ∈ sub2 s → c ∈ s ∨ c = ' ' := by
    intro n
    induction n with
    | zero =>
      intro s hl h
      have hs : s = [] := by cases s with
        | nil => rfl
        | cons x xs => simp at hl
      subst hs
      simp [sub2_nil] at h
    | succ n ih =>
      intro s hl h
      cases s with
      | nil => simp [sub2_nil] at h
      | cons x xs =>
        rw [sub2_cons] at h
        cases hm : splitMatch2 (x :: xs) with
        | some triple =>
          obtain ⟨lm, dm, rest⟩ := triple
          rw [hm] at h
          obtain ⟨hsplit, -, -, -, -, -⟩ := splitMatch2_some hm
          have hrest : rest.length ≤ n := by
            have := splitMatch2_rest_len hm
            simp only [List.length_cons] at this hl
            omega
          simp only [] at h
          rcases List.mem_append.mp h with h1 | h1
          · rcases List.mem_append.mp h1 with h2 | h2
            · exact Or.inl (by rw [hsplit]; simp [h2])
            · rcases List.mem_cons.mp h2 with rfl | h3
              · exact Or.inr rfl
              · exact Or.inl (by rw [hsplit]; simp [h3])
          · rcases ih rest hrest h1 with h4 | h4
            · exact Or.inl (by rw [hsplit]; simp [h4])
            · exact Or.inr h4
        | none =>
          rw [hm] at h
          simp only [] at h
          rcases List.mem_cons.mp h with rfl | h2
          · exact Or.inl (by simp)
          · rcases ih xs (by simp at hl; omega) h2 with h3 | h3
            · exact Or.inl (by simp [h3])
            · exact Or.inr h3
  exact H s.length s (le_refl _)

theorem letter_not_pydigit : ∀ c, isAsciiLetter c = true → isPyDigit c = false := by
  intro c h
  simp only [isAsciiLetter, Bool.or_eq_true, Bool.and_eq_true, decide_eq_true_eq] at h
  cases hq : isPyDigit c with
  | false => rfl
  | true =>
    exfalso
    simp only [isPyDigit, Bool.or_eq_true, Bool.and_eq_true, decide_eq_true_eq] at hq
    rcases h with ⟨h1, h2⟩ | ⟨h1, h2⟩ <;> rcases hq with ⟨q1, q2⟩ | ⟨q1, q2⟩
    · exact absurd (le_trans h1 q2) (by decide)
    · exact absurd (le_trans q1 h2) (by decide)
    · exact absurd (le_trans h1 q2) (by decide)
    · exact absurd (le_trans q1 h2) (by decide)

theorem pydigit_not_letter : ∀ c, isPyDigit c = true → isAsciiLetter c = false := by
  intro c h
  cases hq : isAsciiLetter c with
  | false => rfl
  | true =>
    rw [letter_not_pydigit c hq] at h
    exact absurd h (by simp)

theorem nadB_of_cons {c : Char} {cs : L} (h : nadB (c :: cs) = true) :
    nadB cs = true := by
  cases cs with
  | nil => rfl
  | cons d r =>
    simp only [nadB, Bool.and_eq_true] at h
    exact h.2

theorem nadB_cons_build {c : Char} {cs : L}
    (hh : ∀ y, cs.head? = some y → (isAsciiLetter c && isPyDigit y) = false)
    (h : nadB cs = true) : nadB (c :: cs) = true := by
  cases cs with
  | nil => rfl
  | cons d r =>
    simp only [nadB, Bool.and_eq_true]
    refine ⟨?_, h⟩
    rw [hh d rfl]
    rfl

theorem nadB_all_not_digit {l : L} (h : ∀ x ∈ l, isPyDigit x = false) :
    nadB l = true := by
  induction l with
  | nil => rfl
  | cons c cs ih =>
    apply nadB_cons_build
    · intro y hy
      cases cs with
      | nil => simp at hy
      | cons d r =>
        injection hy with hy'
        rw [← hy']
        rw [h d (by simp)]
        simp
    · exact ih (fun x hx => h x (by simp [hx]))

theorem nadB_all_not_alpha {l : L} (h : ∀ x ∈ l, isAsciiLetter x = false) :
    nadB l = true := by
  induction l with
  | nil => rfl
  | cons c cs ih =>
    apply nadB_cons_build
    · intro y hy
      rw [h c (by simp)]
      rfl
    · exact ih (fun x hx => h x (by simp [hx]))

theorem nadB_append {u v : L} (hu : nadB u = true) (hv : nadB v = true)
    (hb : ∀ x y, u.getLast? = some x → v.head? = some y →
      (isAsciiLetter x && isPyDigit y) = false) :
    nadB (u ++ v) = true := by
  induction u with
  | nil => exact hv
  | cons x u' ih =>
    cases u' with
    | nil =>
      rw [List.singleton_append]
      apply nadB_cons_build
      · intro y hy
        exact hb x y rfl hy
      · exact hv
    | cons x2 u'' =>
      rw [List.cons_append]
      apply nadB_cons_build
      · intro y hy
        rw [List.cons_append] at hy
        injection hy with hy'
        subst hy'
        simp only [nadB, Bool.and_eq_true] at hu
        have hu1 := hu.1
        cases hab : (isAsciiLetter x && isPyDigit x2) with
        | false => rfl
        | true =>
          rw [hab] at hu1
          simp at hu1
      · apply ih (nadB_of_cons hu)
        intro a b hla hlb
        apply hb a b ?_ hlb
        rw [getLast?_cons_right (by simp)]
        exact hla

theorem nadB_pair {s : L} (h : nadB s = true) :
    ∀ u x y v, s = u ++ x :: y :: v → (isAsciiLetter x && isPyDigit y) = false := by
  induction s with
  | nil =>
    intro u x y v he
    exfalso
    cases u <;> simp at he
  | cons c cs ih =>
    intro u x y v he
    cases u with
    | nil =>
      simp only [List.nil_append] at he
      injection he with h1 h2
      subst h1
      subst h2
      simp only [nadB, Bool.and_eq_true] at h
      have h1' := h.1
      cases hab : (isAsciiLetter c && isPyDigit y) with
      | false => rfl
      | true =>
        rw [hab] at h1'
        simp at h1'
    | cons w u' =>
      rw [List.cons_append] at he
      injection he with h1 h2
      exact ih (nadB_of_cons h) u' x y v h2

theorem takeWhile_nil_head {p : Char → Bool} {l : L}
    (h : l.takeWhile p = []) : ∀ y, l.head? = some y → p y = false := by
  intro y hy
  cases l with
  | nil => simp at hy
  | cons c cs =>
    injection hy with hy'
    rw [List.takeWhile_cons] at h
    by_cases hc : p c
    · rw [if_pos hc] at h
      simp at h
    · rw [← hy']
      simpa using hc

theorem sub1_head {d : Char} {r : L} : ∃ tail, sub1 (d :: r) = d :: tail := by
  rw [sub1_cons]
  cases hm : splitMatch1 (d :: r) with
  | some triple =>
    obtain ⟨lm, dm, rest⟩ := triple
    obtain ⟨hsplit, hlmne, -, -, -⟩ := splitMatch1_some hm
    cases lm with
    | nil => exact absurd rfl hlmne
    | cons l0 lm' =>
      rw [List.cons_append, List.cons_append] at hsplit
      injection hsplit with h1 h2
      subst h1
      exact ⟨(lm' ++ ' ' :: dm) ++ '%' :: sub1 rest, by simp⟩
  | none => exact ⟨sub1 r, rfl⟩

theorem sub2_head {d : Char} {r : L} : ∃ tail, sub2 (d :: r) = d :: tail := by
  rw [sub2_cons]
  cases hm : splitMatch2 (d :: r) with
  | some triple =>
    obtain ⟨lm, dm, rest⟩ := triple
    obtain ⟨hsplit, hlmne, -, -, -, -⟩ := splitMatch2_some hm
    cases lm with
    | nil => exact absurd rfl hlmne
    | cons l0 lm' =>
      rw [List.cons_append, List.cons_append] at hsplit
      injection hsplit with h1 h2
      subst h1
      exact ⟨(lm' ++ ' ' :: dm) ++ sub2 rest, by simp⟩
  | none => exact ⟨sub2 r, rfl⟩

theorem nad_sub2 : ∀ s, nadB (sub2 s) = true := by
  have H : ∀ n s, s.length ≤ n → nadB (sub2 s) = true := by
    intro n
    induction n with
    | zero =>
      intro s hl
      have hs : s = [] := by cases s with
        | nil => rfl
        | cons x xs => simp at hl
      subst hs
      rfl
    | succ n ih =>
      intro s hl
      cases s with
      | nil => rfl
      | cons c cs =>
        rw [sub2_cons]
        cases hm : splitMatch2 (c :: cs) with
        | some triple =>
          obtain ⟨lm, dm, rest⟩ := triple
          obtain ⟨hsplit, hlmne, hdmne, hlmL, hdmD, -⟩ := splitMatch2_some hm
          have hrest : rest.length ≤ n := by
            have := splitMatch2_rest_len hm
            simp only [List.length_cons] at this hl
            omega
          simp only []
          have n1 : nadB lm = true :=
            nadB_all_not_digit (fun x hx => letter_not_pydigit x (hlmL x hx))
          have n2 : nadB (' ' :: dm) = true := by
            apply nadB_cons_build
            · intro y hy
              have : isAsciiLetter ' ' = false := by decide
              rw [this]
              rfl
            · exact nadB_all_not_alpha (fun x hx => pydigit_not_letter x (hdmD x hx))
          have n12 : nadB (lm ++ ' ' :: dm) = true := by
            apply nadB_append n1 n2
            intro x y hx hy
            injection hy with hy'
            rw [← hy']
            have : isPyDigit ' ' = false := by decide
            rw [this]
            simp
          apply nadB_append n12 (ih rest hrest)
          intro x y hx hy
          have hxd : x ∈ dm := by
            rw [getLast?_append_right (by simp)] at hx
            rw [getLast?_cons_right hdmne] at hx
            exact List.mem_of_getLast?_eq_some hx
          rw [pydigit_not_letter x (hdmD x hxd)]
          rfl
        | none =>
          simp only []
          cases cs with
          | nil => rfl
          | cons d r =>
            apply nadB_cons_build
            · intro y hy
              obtain ⟨tail, htl⟩ := sub2_head (d := d) (r := r)
              rw [htl] at hy
              injection hy with hy'
              rw [← hy']
              cases hca : isAsciiLetter c with
              | false => rfl
              | true =>
                cases hdd : isPyDigit d with
                | false => rfl
                | true =>
                  exfalso
                  have h1 : (c :: d :: r).takeWhile isAsciiLetter ≠ [] := by
                    rw [List.takeWhile_cons, if_pos hca]
                    simp
                  have h2 : ((c :: d :: r).dropWhile isAsciiLetter).takeWhile isPyDigit ≠ [] := by
                    rw [List.dropWhile_cons]
                    rw [if_pos hca]
                    rw [List.dropWhile_cons]
                    rw [if_neg (by rw [pydigit_not_letter d hdd]; simp)]
                    rw [List.takeWhile_cons, if_pos hdd]
                    simp
                  unfold splitMatch2 at hm
                  rw [if_pos ⟨h1, h2⟩] at hm
                  simp at hm
            · exact ih (d :: r) (by simp at hl ⊢; omega)
  exact fun s => H s.length s (le_refl _)

theorem sub2_id_of_nad : ∀ s, nadB s = true → sub2 s = s := by
  have H : ∀ n s, s.length ≤ n → nadB s = true → sub2 s = s := by
    intro n
    induction n with
    | zero =>
      intro s hl h
      have hs : s = [] := by cases s with
        | nil => rfl
        | cons x xs => simp at hl
      subst hs
      rfl
    | succ n ih =>
      intro s hl h
      cases s with
      | nil => rfl
      | cons c cs =>
        rw [sub2_cons]
        cases hm : splitMatch2 (c :: cs) with
        | some triple =>
          exfalso
          obtain ⟨lm, dm, rest⟩ := triple
          obtain ⟨hsplit, hlmne, hdmne, hlmL, hdmD, -⟩ := splitMatch2_some hm
          cases hdme : dm with
          | nil => exact hdmne hdme
          | cons dmh dmt =>
            have hx : (c :: cs) = lm.dropLast ++ lm.getLast hlmne :: dmh :: (dmt ++ rest) := by
              rw [hsplit, hdme]
              conv_lhs => rw [← List.dropLast_append_getLast hlmne]
              simp
            have := nadB_pair h lm.dropLast (lm.getLast hlmne) dmh (dmt ++ rest) hx
            rw [hlmL _ (List.getLast_mem hlmne)] at this
            rw [hdmD dmh (by rw [hdme]; simp)] at this
            simp at this
        | none =>
          simp only []
          rw [ih cs (by simp at hl; omega) (nadB_of_cons h)]
  exact fun s => H s.length s (le_refl _)

theorem sub1_id_of_nad : ∀ s, nadB s = true → sub1 s = s := by
  have H : ∀ n s, s.length ≤ n → nadB s = true → sub1 s = s := by
    intro n
    induction n with
    | zero =>
      intro s hl h
      have hs : s = [] := by cases s with
        | nil => rfl
        | cons x xs => simp at hl
      subst hs
      rfl
    | succ n ih =>
      intro s hl h
      cases s with
      | nil => rfl
      | cons c cs =>
        rw [sub1_cons]
        cases hm : splitMatch1 (c :: cs) with
        | some triple =>
          exfalso
          obtain ⟨lm, dm, rest⟩ := triple
          obtain ⟨hsplit, hlmne, hdmne, hlmL, hdmD⟩ := splitMatch1_some hm
          cases hdme : dm with
          | nil => exact hdmne hdme
          | cons dmh dmt =>
            have hx : (c :: cs) = lm.dropLast ++ lm.getLast hlmne :: dmh :: (dmt ++ '%' :: rest) := by
              rw [hsplit, hdme]
              conv_lhs => rw [← List.dropLast_append_getLast hlmne]
              simp
            have := nadB_pair h lm.dropLast (lm.getLast hlmne) dmh (dmt ++ '%' :: rest) hx
            rw [hlmL _ (List.getLast_mem hlmne)] at this
            rw [hdmD dmh (by rw [hdme]; simp)] at this
            simp at this
        | none =>
          simp only []
          rw [ih cs (by simp at hl; omega) (nadB_of_cons h)]
  exact fun s => H s.length s (le_refl _)

theorem goodB_append_elim {p : Char} : ∀ {u v : L},
    goodB p (u ++ v) = true → goodB p v = true := by
  intro u
  induction u with
  | nil => intro v h; exact h
  | cons x u' ih =>
    intro v h
    rw [List.cons_append] at h
    exact ih (goodB_of_cons h)

theorem goodB_append_of_ne {p : Char} {u v : L}
    (hu : ∀ x ∈ u, x ≠ p) (hv : goodB p v = true) :
    goodB p (u ++ v) = true := by
  induction u with
  | nil => exact hv
  | cons x u' ih =>
    rw [List.cons_append]
    exact goodB_cons_of_ne (hu x (by simp)) (ih (fun y hy => hu y (by simp [hy])))

theorem good_sub1 {p : Char} (hplet : isAsciiLetter p = false)
    (hpd : isPyDigit p = false) (hppct : p ≠ '%') (hpsp : pyIsSpace p = false) :
    ∀ s, goodB p s = true → goodB p (sub1 s) = true := by
  have H : ∀ n s, s.length ≤ n → goodB p s = true → goodB p (sub1 s) = true := by
    intro n
    induction n with
    | zero =>
      intro s hl h
      have hs : s = [] := by cases s with
        | nil => rfl
        | cons x xs => simp at hl
      subst hs
      rfl
    | succ n ih =>
      intro s hl h
      cases s with
      | nil => rfl
      | cons c cs =>
        rw [sub1_cons]
        cases hm : splitMatch1 (c :: cs) with
        | some triple =>
          obtain ⟨lm, dm, rest⟩ := triple
          obtain ⟨hsplit, hlmne, hdmne, hlmL, hdmD⟩ := splitMatch1_some hm
          have hrest : rest.length ≤ n := by
            have := splitMatch1_rest_len hm
            simp only [List.length_cons] at this hl
            omega
          have hgrest : goodB p rest = true := by
            have h1 : goodB p ('%' :: rest) = true := by
              have : lm ++ dm ++ '%' :: rest = (lm ++ dm) ++ ('%' :: rest) := by simp
              rw [hsplit, this] at h
              exact goodB_append_elim h
            exact goodB_of_cons h1
          simp only []
          apply goodB_append_of_ne
          · intro x hx
            rcases List.mem_append.mp hx with h1 | h1
            · intro he
              have hxl := hlmL p (he ▸ h1)
              rw [hxl] at hplet
              simp at hplet
            · rcases List.mem_cons.mp h1 with rfl | h2
              · exact space_ne_of_not_space hpsp
              · intro he
                have hxd := hdmD p (he ▸ h2)
                rw [hxd] at hpd
                simp at hpd
          · exact goodB_cons_of_ne (Ne.symm hppct) (ih rest hrest hgrest)
        | none =>
          simp only []
          by_cases hcp : c = p
          · rw [hcp] at h ⊢
            cases cs with
            | nil =>
              exfalso
              simp only [goodB, bne_self_eq_false] at h
              exact absurd h (by simp)
            | cons d r =>
              have hd : pyIsSpace d = true := by
                simp only [goodB, Bool.and_eq_true, Bool.or_eq_true] at h
                rcases h.1 with h1 | h1
                · simp at h1
                · exact h1
              obtain ⟨tail, htl⟩ := sub1_head (d := d) (r := r)
              rw [htl]
              have hgd : goodB p (d :: tail) = true := by
                rw [← htl]
                exact ih (d :: r) (by simp at hl ⊢; omega) (goodB_of_cons h)
              simp only [goodB, Bool.and_eq_true, Bool.or_eq_true]
              exact ⟨Or.inr hd, hgd⟩
          · exact goodB_cons_of_ne hcp (ih cs (by simp at hl; omega) (goodB_of_cons h))
  exact fun s => H s.length s (le_refl _)

theorem good_sub2 {p : Char} (hplet : isAsciiLetter p = false)
    (hpd : isPyDigit p = false) (hpsp : pyIsSpace p = false) :
    ∀ s, goodB p s = true → goodB p (sub2 s) = true := by
  have H : ∀ n s, s.length ≤ n → goodB p s = true → goodB p (sub2 s) = true := by
    intro n
    induction n with
    | zero =>
      intro s hl h
      have hs : s = [] := by cases s with
        | nil => rfl
        | cons x xs => simp at hl
      subst hs
      rfl
    | succ n ih =>
      intro s hl h
      cases s with
      | nil => rfl
      | cons c cs =>
        rw [sub2_cons]
        cases hm : splitMatch2 (c :: cs) with
        | some triple =>
          obtain ⟨lm, dm, rest⟩ := triple
          obtain ⟨hsplit, hlmne, hdmne, hlmL, hdmD, -⟩ := splitMatch2_some hm
          have hrest : rest.length ≤ n := by
            have := splitMatch2_rest_len hm
            simp only [List.length_cons] at this hl
            omega
          have hgrest : goodB p rest = true := by
            have : lm ++ dm ++ rest = (lm ++ dm) ++ rest := by simp
            rw [hsplit, this] at h
            exact goodB_append_elim h
          simp only []
          apply goodB_append_of_ne
          · intro x hx
            rcases List.mem_append.mp hx with h1 | h1
            · intro he
              have hxl := hlmL p (he ▸ h1)
              rw [hxl] at hplet
              simp at hplet
            · rcases List.mem_cons.mp h1 with rfl | h2
              · exact space_ne_of_not_space hpsp
              · intro he
                have hxd := hdmD p (he ▸ h2)
                rw [hxd] at hpd
                simp at hpd
          · exact ih rest hrest hgrest
        | none =>
          simp only []
          by_cases hcp : c = p
          · rw [hcp] at h ⊢
            cases cs with
            | nil =>
              exfalso
              simp only [goodB, bne_self_eq_false] at h
              exact absurd h (by simp)
            | cons d r =>
              have hd : pyIsSpace d = true := by
                simp only [goodB, Bool.and_eq_true, Bool.or_eq_true] at h
                rcases h.1 with h1 | h1
                · simp at h1
                · exact h1
              obtain ⟨tail, htl⟩ := sub2_head (d := d) (r := r)
              rw [htl]
              have hgd : goodB p (d :: tail) = true := by
                rw [← htl]
                exact ih (d :: r) (by simp at hl ⊢; omega) (goodB_of_cons h)
              simp only [goodB, Bool.and_eq_true, Bool.or_eq_true]
              exact ⟨Or.inr hd, hgd⟩
          · exact goodB_cons_of_ne hcp (ih cs (by simp at hl; omega) (goodB_of_cons h))
  exact fun s => H s.length s (le_refl _)

/-- C3 (confirmed): the three-pass character normalization used by
`translate_text` — fullwidth-to-halfwidth conversion, then punctuation
spacing, then unit/number spacing — is idempotent: applying it to its own
output changes nothing. -/
theorem claim_C3 (s : L) :
    add_spaces_after_materials (add_spacing_after_punctuation
      (convert_fullwidth_to_halfwidth
        (add_spaces_after_materials (add_spacing_after_punctuation
          (convert_fullwidth_to_halfwidth s)))))
    = add_spaces_after_materials (add_spacing_after_punctuation
        (convert_fullwidth_to_halfwidth s)) := by
  simp only [conv_eq, spacing_eq, materials_eq]
  set y := sub2 (sub1 (addAfter ':' (addAfter ',' (addAfter ')' (convT fwTable s)))))
    with hy
  have hNK : ∀ q ∈ fwTable, q.1 ∉ y := by
    intro q hq hmem
    have hqs : q.1 ≠ ' ' := by
      intro he
      have := fwKeys_big q hq
      rw [he] at this
      exact absurd this (by decide)
    rw [hy] at hmem
    rcases mem_sub2 hmem with h1 | h1
    swap
    · exact hqs h1
    rcases mem_sub1 h1 with h2 | h2
    swap
    · exact hqs h2
    rcases mem_addAfter h2 with h3 | h3
    swap
    · exact hqs h3
    rcases mem_addAfter h3 with h4 | h4
    swap
    · exact hqs h4
    rcases mem_addAfter h4 with h5 | h5
    swap
    · exact hqs h5
    exact conv_no_keys q.1 h5 q hq rfl
  have hconvid : convT fwTable y = y := convT_id hNK
  have hg1 : goodB ')' y = true := by
    rw [hy]
    apply good_sub2 (by decide) (by decide) (by decide)
    apply good_sub1 (by decide) (by decide) (by decide) (by decide)
    apply good_addAfter_other (by decide) (by decide) (by decide)
    apply good_addAfter_other (by decide) (by decide) (by decide)
    exact good_addAfter_self ')' (by decide) _
  have hg2 : goodB ',' y = true := by
    rw [hy]
    apply good_sub2 (by decide) (by decide) (by decide)
    apply good_sub1 (by decide) (by decide) (by decide) (by decide)
    apply good_addAfter_other (by decide) (by decide) (by decide)
    exact good_addAfter_self ',' (by decide) _
  have hg3 : goodB ':' y = true := by
    rw [hy]
    apply good_sub2 (by decide) (by decide) (by decide)
    apply good_sub1 (by decide) (by decide) (by decide) (by decide)
    exact good_addAfter_self ':' (by decide) _
  have hnad : nadB y = true := by
    rw [hy]
    exact nad_sub2 _
  rw [hconvid, good_id hg1, good_id hg2, good_id hg3,
    sub1_id_of_nad y hnad, sub2_id_of_nad y hnad]
